import Mathlib

/-!
Shallow embedding of the mupdf resource store (`src/fitz/res_store.c`):
the reference-counted storable protocol, the LRU cache with a hash index
for indirect keys, bounded-capacity insertion with two-pass eviction,
and the graduated scavenge algorithm.  Machine `unsigned int` values are
modelled as `Nat` with explicit wraparound at `2 ^ 32`; `int` fields
(reference counts, object numbers) are modelled as `Int`.  Pointer
dereference of absent heap cells and exhaustion of loop fuel are modelled
by `Option`, with `none` standing for undefined behaviour.
-/

namespace ResStore

/-- UINT_MAX for a 32-bit `unsigned int`. -/
def UINT_MAX : Nat := 4294967295

/-- C `unsigned int` addition (wraps modulo `2 ^ 32`). -/
def uadd (a b : Nat) : Nat := (a + b) % 4294967296

/-- C `unsigned int` subtraction (wraps modulo `2 ^ 32`). -/
def usub (a b : Nat) : Nat := (a + 4294967296 - b % 4294967296) % 4294967296

/-- Lookup in an association-list heap (first match). -/
def lookupA {κ α : Type} [DecidableEq κ] : List (κ × α) → κ → Option α
  | [], _ => none
  | (k, v) :: t, k' => if k = k' then some v else lookupA t k'

/-- Overwrite every cell with the given key in an association-list heap. -/
def setA {κ α : Type} [DecidableEq κ] : List (κ × α) → κ → α → List (κ × α)
  | [], _, _ => []
  | (k0, v0) :: t, k, v =>
      (if k0 = k then (k, v) else (k0, v0)) :: setA t k v

/-- Delete every cell with the given key from an association-list heap. -/
def removeA {κ α : Type} [DecidableEq κ] : List (κ × α) → κ → List (κ × α)
  | [], _ => []
  | (k0, v0) :: t, k =>
      if k0 = k then removeA t k else (k0, v0) :: removeA t k

/-- The payload data of an `fz_obj` key: either an indirect reference
`(num, gen)` or an opaque comparable value. `fz_objcmp` compares this data. -/
structure ObjData where
  isIndirect : Bool
  num : Int
  gen : Int
  opq : Nat
deriving DecidableEq, Repr

/-- A heap cell for an `fz_obj` key: reference count plus payload. -/
structure KeyObj where
  refs : Nat
  data : ObjData
deriving DecidableEq, Repr

/-- A heap cell for an `fz_storable`: signed reference count (negative
means static/immortal) and the identity of its `free` function. -/
structure Storable where
  refs : Int
  freeId : Nat
deriving DecidableEq, Repr

/-- `struct refkey`: the hash-table key `(free, num, gen)`. -/
structure RefKey where
  free : Nat
  num : Int
  gen : Int
deriving DecidableEq, Repr

/-- `struct fz_item_s`: key pointer, value pointer, declared size and the
doubly-linked-list neighbour pointers (heap ids; `none` is NULL). -/
structure Item where
  key : Nat
  val : Nat
  size : Nat
  next : Option Nat
  prev : Option Nat
deriving DecidableEq, Repr

/-- The whole mutable state touched by `res_store.c`: the item heap, the
storable heap, the key-object heap, the store fields of `struct fz_store_s`
(`head`, `tail`, `hash`, `max`, `size`; `max = none` is `FZ_STORE_UNLIMITED`)
and a log of the storables whose `free` function has run. -/
structure World where
  items : List (Nat × Item)
  storables : List (Nat × Storable)
  objs : List (Nat × KeyObj)
  head : Option Nat
  tail : Option Nat
  hash : List (RefKey × Nat)
  max : Option Nat
  size : Nat
  finalized : List Nat
deriving DecidableEq, Repr

/-- Overwrite one storable cell of the world (used for the pin/unpin
reference-count writes of `ensure_space` pass 2). -/
def setStorable (w : World) (sid : Nat) (s : Storable) : World :=
  { w with storables := setA w.storables sid s }

/-- `fz_keep_obj` on the key heap: bump the key object's reference count. -/
def keepObjHeap (objs : List (Nat × KeyObj)) (k : Nat) :
    Option (List (Nat × KeyObj)) := do
  let o ← lookupA objs k
  pure (setA objs k { o with refs := o.refs + 1 })

/-- `fz_drop_obj` on the key heap: drop one reference to the key object,
freeing the cell when the count reaches zero. -/
def dropObjHeap (objs : List (Nat × KeyObj)) (k : Nat) :
    Option (List (Nat × KeyObj)) := do
  let o ← lookupA objs k
  if o.refs ≤ 1 then pure (removeA objs k)
  else pure (setA objs k { o with refs := o.refs - 1 })

/-- State of a single standalone storable for the keep/drop protocol:
its signed reference count and the number of times `free` has run. -/
structure SSt where
  refs : Int
  finCount : Nat
deriving DecidableEq, Repr

/-- Embedding of `fz_keep_storable` on a non-null storable: increment the
reference count only when it is positive; the pointer returned is the
argument itself, so the result state is the whole observable effect. -/
def fz_keep_storable (s : SSt) : SSt :=
  if s.refs > 0 then { s with refs := s.refs + 1 } else s

/-- Embedding of the locked section of `fz_drop_storable` on a non-null
storable: returns the updated cell and the `do_free` flag telling the
caller to invoke `free` once the lock has been released. -/
def fz_drop_storable_locked (s : SSt) : SSt × Bool :=
  if s.refs < 0 then (s, false)
  else if s.refs - 1 = 0 then ({ s with refs := s.refs - 1 }, true)
  else ({ s with refs := s.refs - 1 }, false)

/-- Embedding of `fz_drop_storable` on a non-null storable: drop under the
lock, then run `free` (here: count one finalization) when `do_free` is set. -/
def fz_drop_storable (s : SSt) : SSt :=
  let (s', doFree) := fz_drop_storable_locked s
  if doFree then { s' with finCount := s'.finCount + 1 } else s'

/-- Null-tolerant wrappers: both entry points return immediately on NULL. -/
def fz_keep_storable_opt : Option SSt → Option SSt
  | none => none
  | some s => some (fz_keep_storable s)

/-- Null-tolerant `fz_drop_storable`. -/
def fz_drop_storable_opt : Option SSt → Option SSt
  | none => none
  | some s => some (fz_drop_storable s)

/-- A keep or drop event in a history of operations on one storable. -/
inductive SOp
  | keep
  | drop
deriving DecidableEq, Repr

/-- Run a sequence of keep/drop operations on one storable. -/
def runSOps (s : SSt) : List SOp → SSt
  | [] => s
  | SOp.keep :: t => runSOps (fz_keep_storable s) t
  | SOp.drop :: t => runSOps (fz_drop_storable s) t

/-- Embedding of `fz_drop_storable` acting on a storable that lives in the
world's storable heap (the path a caller uses to drop an external
reference to a cached value). -/
def fz_drop_storable_w (w : World) (sid : Nat) : Option World := do
  let s ← lookupA w.storables sid
  if s.refs < 0 then pure w
  else if s.refs - 1 = 0 then
    pure { w with storables := removeA w.storables sid,
                  finalized := w.finalized ++ [sid] }
  else
    pure { w with storables := setA w.storables sid { s with refs := s.refs - 1 } }

/-- First half of the unlink block (`if (item->next) item->next->prev =
item->prev`): repair the successor's back-pointer when it exists.
Dereferencing an absent successor cell is undefined behaviour (`none`). -/
def unlinkNext (items : List (Nat × Item)) (it : Item) :
    Option (List (Nat × Item)) :=
  match it.next with
  | some n =>
      (lookupA items n).bind fun nit =>
        some (setA items n { nit with prev := it.prev })
  | none => some items

/-- Second half of the unlink block (`if (item->prev) item->prev->next =
item->next`): repair the predecessor's forward pointer when it exists. -/
def unlinkPrev (items : List (Nat × Item)) (it : Item) :
    Option (List (Nat × Item)) :=
  match it.prev with
  | some p =>
      (lookupA items p).bind fun pit =>
        some (setA items p { pit with next := it.next })
  | none => some items

/-- The shared unlink block (`res_store.c` lines 106-114, 329-336, 390-397):
repair the neighbours' pointers and update `head`/`tail` exactly when the
item has no predecessor/successor (`else store->tail = item->prev;` and
`else store->head = item->next;`). -/
def unlinkItem (items : List (Nat × Item)) (head tail : Option Nat)
    (it : Item) : Option (List (Nat × Item) × Option Nat × Option Nat) :=
  (unlinkNext items it).bind fun items1 =>
    (unlinkPrev items1 it).bind fun items2 =>
      some (items2,
        (match it.prev with | some _ => head | none => it.next),
        (match it.next with | some _ => tail | none => it.prev))

/-- Embedding of `evict` (`res_store.c` lines 99-133): subtract the size,
unlink from the LRU list, drop the store's reference to the value (freeing
it when the count reaches zero), remove an indirect key from the hash
table, drop the key and free the item. -/
def evict (w : World) (i : Nat) : Option World := do
  let it ← lookupA w.items i
  let s ← lookupA w.storables it.val
  let size1 := usub w.size it.size
  let (items1, head1, tail1) ← unlinkItem w.items w.head w.tail it
  let dropFlag : Bool := s.refs > 0 && s.refs - 1 = 0
  let storables1 :=
    if s.refs > 0 then setA w.storables it.val { s with refs := s.refs - 1 }
    else w.storables
  let key ← lookupA w.objs it.key
  let hash1 :=
    if key.data.isIndirect then
      removeA w.hash ⟨s.freeId, key.data.num, key.data.gen⟩
    else w.hash
  let storables2 := if dropFlag then removeA storables1 it.val else storables1
  let fin1 := if dropFlag then w.finalized ++ [it.val] else w.finalized
  let objs1 ← dropObjHeap w.objs it.key
  pure { items := removeA items1 i, storables := storables2, objs := objs1,
         head := head1, tail := tail1, hash := hash1, max := w.max,
         size := size1, finalized := fin1 }

/-- Pass 1 of `ensure_space` (`res_store.c` lines 146-155): walk the list
from the tail summing the sizes of single-reference entries; report whether
the walk broke out having reached `tofree` (`true`) or exhausted the list
(`false`, the C loop ending with `item == NULL`). -/
def pass1 (w : World) : Nat → Option Nat → Nat → Nat → Option Bool
  | 0, _, _, _ => none
  | _, none, _, _ => some false
  | fuel + 1, some i, count, tofree => do
    let it ← lookupA w.items i
    let s ← lookupA w.storables it.val
    if s.refs = 1 then
      let count1 := uadd count it.size
      if count1 ≥ tofree then some true
      else pass1 w fuel it.prev count1 tofree
    else pass1 w fuel it.prev count tofree

/-- Pass 2 of `ensure_space` (`res_store.c` lines 163-193): walk from the
tail evicting single-reference entries.  Before each eviction the
predecessor, when present, is pinned (`if (prev) prev->val->refs++`);
after the eviction `--prev->val->refs` runs unconditionally, so an absent
predecessor is dereferenced (`none`). -/
def pass2 : Nat → World → Option Nat → Nat → Nat → Option (World × Nat)
  | 0, _, _, _, _ => none
  | _, w, none, count, _ => some (w, count)
  | fuel + 1, w, some i, count, tofree => do
    let it ← lookupA w.items i
    let prev := it.prev
    let s ← lookupA w.storables it.val
    if s.refs = 1 then
      let count1 := uadd count it.size
      let w1 ←
        match prev with
        | none => pure w
        | some p => do
            let pit ← lookupA w.items p
            let ps ← lookupA w.storables pit.val
            pure (setStorable w pit.val { ps with refs := ps.refs + 1 })
      let w2 ← evict w1 i
      match prev with
      | none => none
      | some p => do
          let pit ← lookupA w2.items p
          let ps ← lookupA w2.storables pit.val
          let w3 := setStorable w2 pit.val { ps with refs := ps.refs - 1 }
          if count1 ≥ tofree then some (w3, count1)
          else pass2 fuel w3 prev count1 tofree
    else pass2 fuel w prev count tofree

/-- Embedding of `ensure_space` (`res_store.c` lines 135-194): the
feasibility pass, then either `0` without touching the store or the
execution pass. -/
def ensure_space (w : World) (tofree : Nat) : Option (World × Nat) := do
  let feasible ← pass1 w (w.items.length + 1) w.tail 0 tofree
  if feasible then pass2 (w.items.length + 1) w w.tail 0 tofree
  else some (w, 0)

/-- The capacity loop of `fz_store_item` (`res_store.c` lines 236-246):
`size` is computed once by the caller and never refreshed, so the loop
re-enters `ensure_space` until it returns `0`; the `Bool` reports whether
the insert goes ahead (`true`) or is abandoned (`false`). -/
def ensure_space_loop : Nat → World → Nat → Nat → Option (World × Bool)
  | 0, _, _, _ => none
  | fuel + 1, w, sizeV, maxV =>
    if sizeV > maxV then do
      let (w1, c) ← ensure_space w (usub sizeV maxV)
      if c = 0 then some (w1, false)
      else ensure_space_loop fuel w1 sizeV maxV
    else some (w, true)

/-- A fresh heap id for a newly allocated item. -/
def freshItemId (w : World) : Nat :=
  (w.items.map Prod.fst).foldr max 0 + 1

/-- The final section of `fz_store_item` (`res_store.c` lines 273-283):
bump the value's reference count and push the item at the list head. -/
def store_link (w : World) (newId keyId valId itemsize : Nat) :
    Option World := do
  let v0 : Storable ← lookupA w.storables valId
  let w :=
    if v0.refs > 0 then
      { w with storables := setA w.storables valId { v0 with refs := v0.refs + 1 } }
    else w
  let (items1, tail1) ←
    match w.head with
    | some h => do
        let hit ← lookupA w.items h
        pure (setA w.items h { hit with prev := some newId }, w.tail)
    | none => pure (w.items, some newId)
  let item : Item := ⟨keyId, valId, itemsize, w.head, none⟩
  pure { w with items := (newId, item) :: items1, head := some newId,
                tail := tail1 }

/-- The post-admission tail of `fz_store_item` (`res_store.c` lines
248-284): reserve the size, keep the key, try the hash insert for an
indirect key (rolling back the size and leaking the key reference on
failure), then bump the value's reference count and link at the head. -/
def store_admit (w : World) (newId keyId valId itemsize : Nat)
    (refkey : Option RefKey) (indirect hashFails : Bool) : Option World := do
  let w := { w with size := uadd w.size itemsize }
  let objs1 ← keepObjHeap w.objs keyId
  let w := { w with objs := objs1 }
  if indirect && hashFails then
    pure { w with size := usub w.size itemsize }
  else do
    let w ←
      match refkey with
      | some rk => pure { w with hash := (rk, newId) :: w.hash }
      | none => pure w
    store_link w newId keyId valId itemsize

/-- Embedding of `fz_store_item` (`res_store.c` lines 196-285).  The hash
table is an external collaborator whose insert may fail; `hashFails`
selects that branch.  Allocation of the item itself is assumed to
succeed.  The result is the new world; `none` is undefined behaviour. -/
def fz_store_item (w : World) (keyId valId itemsize : Nat)
    (hashFails : Bool) : Option World := do
  let newId := freshItemId w
  let key ← lookupA w.objs keyId
  let indirect := key.data.isIndirect
  let refkey : Option RefKey ←
    if indirect then do
      let val ← lookupA w.storables valId
      pure (some ⟨val.freeId, key.data.num, key.data.gen⟩)
    else pure none
  let (w, admitted) ←
    match w.max with
    | none => pure (w, true)
    | some m => ensure_space_loop (w.items.length + 1) w (uadd w.size itemsize) m
  if admitted = false then pure w
  else store_admit w newId keyId valId itemsize refkey indirect hashFails

/-- The linear hunt of `fz_find_item` / `fz_remove_item` for keys that are
not indirect: walk the list from the head comparing the value's `free`
identity and structural key equality (`fz_objcmp`). -/
def linearFind (w : World) (freeId : Nat) (key : ObjData) :
    Nat → Option Nat → Option (Option Nat)
  | 0, _ => none
  | _, none => some none
  | fuel + 1, some i => do
    let it ← lookupA w.items i
    let s ← lookupA w.storables it.val
    let k ← lookupA w.objs it.key
    if s.freeId = freeId ∧ k.data = key then some (some i)
    else linearFind w freeId key fuel it.next

/-- The hit path of `fz_find_item` (`res_store.c` lines 325-350): unlink
the item from its present position, insert it at the head, bump the
value's reference count and return the value id. -/
def find_touch (w : World) (i : Nat) : Option (World × Option Nat) := do
  let it ← lookupA w.items i
  let (items1, head1, tail1) ← unlinkItem w.items w.head w.tail it
  let it1 : Item := { it with next := head1, prev := none }
  let items2 := setA items1 i it1
  let (items3, tail2) ←
    match head1 with
    | some h => do
        let hit ← lookupA items2 h
        pure (setA items2 h { hit with prev := some i }, tail1)
    | none => pure (items2, some i)
  let s ← lookupA w.storables it.val
  let storables1 :=
    if s.refs > 0 then setA w.storables it.val { s with refs := s.refs + 1 }
    else w.storables
  some ({ w with items := items3, head := some i, tail := tail2,
                 storables := storables1 }, some it.val)

/-- Embedding of `fz_find_item` (`res_store.c` lines 287-354): hash lookup
for indirect keys, linear hunt otherwise; on a hit, move the item to the
list head, bump the value's reference count and return the value id. -/
def fz_find_item (w : World) (freeId keyId : Nat) :
    Option (World × Option Nat) := do
  let key ← lookupA w.objs keyId
  let indirect := key.data.isIndirect
  let found ←
    if indirect then
      pure (lookupA w.hash ⟨freeId, key.data.num, key.data.gen⟩)
    else linearFind w freeId key.data (w.items.length + 1) w.head
  match found with
  | none => some (w, none)
  | some i => find_touch w i

/-- Embedding of `fz_remove_item` (`res_store.c` lines 356-407): find the
item (removing an indirect key from the hash table), unlink it, drop the
store's reference to the value, drop the key and free the item.  The
store's `size` field is not touched by this function. -/
def fz_remove_item (w : World) (freeId keyId : Nat) : Option World := do
  let key ← lookupA w.objs keyId
  let indirect := key.data.isIndirect
  let (w, found) ←
    if indirect then
      let rk : RefKey := ⟨freeId, key.data.num, key.data.gen⟩
      match lookupA w.hash rk with
      | some i => pure ({ w with hash := removeA w.hash rk }, some i)
      | none => pure (w, (none : Option Nat))
    else do
      let f ← linearFind w freeId key.data (w.items.length + 1) w.head
      pure (w, f)
  match found with
  | none => some w
  | some i => do
      let it ← lookupA w.items i
      let (items1, head1, tail1) ← unlinkItem w.items w.head w.tail it
      let s ← lookupA w.storables it.val
      let dropFlag : Bool := s.refs > 0 && s.refs - 1 = 0
      let storables1 :=
        if s.refs > 0 then setA w.storables it.val { s with refs := s.refs - 1 }
        else w.storables
      let storables2 := if dropFlag then removeA storables1 it.val else storables1
      let fin1 := if dropFlag then w.finalized ++ [it.val] else w.finalized
      let objs1 ← dropObjHeap w.objs it.key
      pure { w with items := removeA items1 i, storables := storables2,
                    objs := objs1, head := head1, tail := tail1,
                    finalized := fin1 }

/-- Embedding of `fz_empty_store` (`res_store.c` lines 409-424): evict the
list head until the list is empty. -/
def fz_empty_store_loop : Nat → World → Option World
  | 0, _ => none
  | fuel + 1, w =>
    match w.head with
    | none => some w
    | some h => do
        let w1 ← evict w h
        fz_empty_store_loop fuel w1

/-- Wrapper choosing enough fuel for `fz_empty_store_loop`. -/
def fz_empty_store (w : World) : Option World :=
  fz_empty_store_loop (w.items.length + 1) w

/-- Sum of `declared_size` over the entries reachable from the list head. -/
def listSizesFrom (w : World) : Nat → Option Nat → Option Nat
  | 0, _ => none
  | _, none => some 0
  | fuel + 1, some i => do
    let it ← lookupA w.items i
    let rest ← listSizesFrom w fuel it.next
    pure (it.size + rest)

/-- Sum of `declared_size` over all entries reachable from the LRU list. -/
def listSizes (w : World) : Option Nat :=
  listSizesFrom w (w.items.length + 1) w.head

/-- The sweep loop of `scavenge` (`res_store.c` lines 491-508): walk from
the tail, evict single-reference entries, and restart the walk from the
tail after every eviction that has not yet reached the target. -/
def scavenge_loop : Nat → World → Option Nat → Nat → Nat → Option (World × Nat)
  | 0, _, _, _, _ => none
  | _, w, none, count, _ => some (w, count)
  | fuel + 1, w, some i, count, tofree => do
    let it ← lookupA w.items i
    let prev := it.prev
    let s ← lookupA w.storables it.val
    if s.refs = 1 then
      let count1 := uadd count it.size
      let w1 ← evict w i
      if count1 ≥ tofree then some (w1, count1)
      else scavenge_loop fuel w1 w1.tail count1 tofree
    else scavenge_loop fuel w prev count tofree

/-- Embedding of `scavenge` (`res_store.c` lines 484-511): success means
at least one byte was freed (`count != 0`). -/
def scavenge (w : World) (tofree : Nat) : Option (World × Bool) := do
  let fuel := (w.items.length + 1) * (w.items.length + 1)
  let (w1, count) ← scavenge_loop fuel w w.tail 0 tofree
  pure (w1, count ≠ 0)

/-- The phase ceiling of `fz_store_scavenge` (`res_store.c` lines 533-539):
`max = 0` at phase 16 and beyond; otherwise `store->max / 16 * (16 - phase)`
when capacity is bounded and `store->size / (16 - phase) * (15 - phase)`
when unlimited, with truncating division performed first. -/
def scavenge_phase_max (storeMax : Option Nat) (storeSize phase : Nat) : Nat :=
  if phase ≥ 16 then 0
  else
    match storeMax with
    | some m => m / 16 * (16 - phase)
    | none => storeSize / (16 - phase) * (15 - phase)

/-- The `tofree` computation of `fz_store_scavenge` (`res_store.c` lines
542-548): `none` is the `continue` branch that skips the phase. -/
def scavenge_tofree (size storeSize maxv : Nat) : Option Nat :=
  if size > UINT_MAX - storeSize then some (UINT_MAX - maxv)
  else if size + storeSize > maxv then none
  else some (usub (size + storeSize) maxv)

/-- Modelled from the spec (§4.8 / §8, claim C2): the intended per-phase
amount to free, `max(0, requested + current - ceiling)` computed with
saturating arithmetic: the sum is clamped to `UINT_MAX` rather than
wrapped, and the subtraction floors at zero. -/
def spec_to_free (requested current ceiling : Nat) : Nat :=
  min (requested + current) UINT_MAX - ceiling

/-- The phase loop of `fz_store_scavenge` (`res_store.c` lines 529-560):
compute the ceiling, advance the phase, compute `tofree` (or skip), sweep,
and continue while the ceiling is positive.  Returns the final world, the
`int` result as a `Bool` and the updated phase counter. -/
def fz_store_scavenge_loop : Nat → World → Nat → Nat →
    Option (World × Bool × Nat)
  | 0, _, _, _ => none
  | fuel + 1, w, size, phase =>
    let maxv := scavenge_phase_max w.max w.size phase
    let phase1 := phase + 1
    match scavenge_tofree size w.size maxv with
    | none =>
        if maxv > 0 then fz_store_scavenge_loop fuel w size phase1
        else some (w, false, phase1)
    | some tofree => do
        let (w1, ok) ← scavenge w tofree
        if ok then some (w1, true, phase1)
        else if maxv > 0 then fz_store_scavenge_loop fuel w1 size phase1
        else some (w1, false, phase1)

/-- Embedding of `fz_store_scavenge` (`res_store.c` lines 513-568); the
phase counter only ever increases and the loop exits once the ceiling for
the phase just run was `0`, so 18 iterations of fuel always suffice for a
phase counter that starts at or below 16. -/
def fz_store_scavenge (w : World) (size phase : Nat) :
    Option (World × Bool × Nat) :=
  fz_store_scavenge_loop (18 + phase) w size phase

/-- Invariant for a standalone storable whose count started positive:
either the count is still positive and `free` has never run, or the count
has reached zero (or below) and `free` has run exactly once. -/
def storableInv (s : SSt) : Prop :=
  (1 ≤ s.refs ∧ s.finCount = 0) ∨ (s.refs ≤ 0 ∧ s.finCount = 1)

/-- A bounded store (capacity 100, current size 90) holding entry `A`
(size 30, externally referenced: count 2) at the head and evictable entry
`B` (size 60, count 1) at the tail; storable `23` and key `13` are the
value and key a caller is about to insert. -/
def wAB : World :=
  { items := [(1, ⟨11, 21, 30, some 2, none⟩), (2, ⟨12, 22, 60, none, some 1⟩)],
    storables := [(21, ⟨2, 5⟩), (22, ⟨1, 5⟩), (23, ⟨1, 5⟩)],
    objs := [(11, ⟨1, ⟨false, 0, 0, 11⟩⟩), (12, ⟨1, ⟨false, 0, 0, 12⟩⟩),
             (13, ⟨1, ⟨false, 0, 0, 13⟩⟩)],
    head := some 1, tail := some 2, hash := [], max := some 100, size := 90,
    finalized := [] }

/-- The world obtained by evicting entry 2 from `wAB` (the concrete
image of `evict wAB 2`, used to exhibit a preserved well-formed list). -/
def wABev : World :=
  { items := [(1, ⟨11, 21, 30, none, none⟩)],
    storables := [(21, ⟨2, 5⟩), (23, ⟨1, 5⟩)],
    objs := [(11, ⟨1, ⟨false, 0, 0, 11⟩⟩), (13, ⟨1, ⟨false, 0, 0, 13⟩⟩)],
    head := some 1, tail := some 1, hash := [], max := some 100, size := 30,
    finalized := [22] }

/-- A bounded store (capacity 100) holding only the evictable size-60
entry `X`; storable `22` and key `12` are the value and key of the size-60
entry `Y` a caller is about to insert. -/
def wX : World :=
  { items := [(1, ⟨11, 21, 60, none, none⟩)],
    storables := [(21, ⟨1, 5⟩), (22, ⟨1, 5⟩)],
    objs := [(11, ⟨1, ⟨false, 0, 0, 11⟩⟩), (12, ⟨1, ⟨false, 0, 0, 12⟩⟩)],
    head := some 1, tail := some 1, hash := [], max := some 100, size := 60,
    finalized := [] }

/-- An unlimited store holding one entry of declared size 50 under an
opaque key, with `current_size = 50`. -/
def w3 : World :=
  { items := [(1, ⟨11, 21, 50, none, none⟩)],
    storables := [(21, ⟨1, 5⟩)],
    objs := [(11, ⟨1, ⟨false, 0, 0, 11⟩⟩)],
    head := some 1, tail := some 1, hash := [], max := none, size := 50,
    finalized := [] }

/-- An empty unlimited store with an indirect key object `(5, 0)` (id 11,
one caller reference) and a storable (id 21, one caller reference) about
to be inserted. -/
def w5 : World :=
  { items := [], storables := [(21, ⟨1, 7⟩)],
    objs := [(11, ⟨1, ⟨true, 5, 0, 0⟩⟩)],
    head := none, tail := none, hash := [], max := none, size := 0,
    finalized := [] }

/-- An empty unlimited store with one indirect key object `(7, 0)` and two
storables: `V1` (id 31, destructor identity `T = 1`) and `V2` (id 32,
destructor identity `U = 2`). -/
def w7 : World :=
  { items := [], storables := [(31, ⟨1, 1⟩), (32, ⟨1, 2⟩)],
    objs := [(10, ⟨1, ⟨true, 7, 0, 0⟩⟩)],
    head := none, tail := none, hash := [], max := none, size := 0,
    finalized := [] }

/-- A bounded store (capacity 1600) holding one evictable entry of size
100, with `current_size = 100`. -/
def w2 : World :=
  { items := [(1, ⟨11, 21, 100, none, none⟩)],
    storables := [(21, ⟨1, 5⟩)],
    objs := [(11, ⟨1, ⟨false, 0, 0, 11⟩⟩)],
    head := some 1, tail := some 1, hash := [], max := some 1600, size := 100,
    finalized := [] }

/-- A bounded store holding one entry whose storable has an external
reference (count 2). -/
def w8 : World :=
  { items := [(1, ⟨11, 21, 30, none, none⟩)],
    storables := [(21, ⟨2, 5⟩)],
    objs := [(11, ⟨1, ⟨false, 0, 0, 11⟩⟩)],
    head := some 1, tail := some 1, hash := [], max := some 100, size := 30,
    finalized := [] }

/-- The identity-relevant part of an item: key, value and declared size
(the list links may legitimately change while an entry survives). -/
def itemCore (it : Item) : Nat × Nat × Nat := (it.key, it.val, it.size)

/-- Preservation of externally referenced entries: every item whose
storable's reference count differs from 1 in `w` is still present in `w'`
with the same key, value and size, and its storable cell is unchanged. -/
def presNE (w w' : World) : Prop :=
  ∀ i it s, lookupA w.items i = some it →
    lookupA w.storables it.val = some s → s.refs ≠ 1 →
    (lookupA w'.items i).map itemCore = some (itemCore it) ∧
    lookupA w'.storables it.val = some s

/-- The doubly-linked-list representation predicate: starting from pointer
`c` whose expected back-pointer is `p`, the chain of item ids is exactly
`L`, with every `next`/`prev` field consistent. -/
def chainB (items : List (Nat × Item)) : Option Nat → Option Nat → List Nat → Bool
  | _, c, [] => decide (c = none)
  | p, c, i :: L =>
    match lookupA items i with
    | some it =>
        decide (c = some i) && decide (it.prev = p) &&
          chainB items (some i) it.next L
    | none => false

/-- The last element of a chain as a pointer (the accumulator `p` when the
chain is empty). -/
def endp : Option Nat → List Nat → Option Nat
  | p, [] => p
  | _, i :: L => endp (some i) L

/-- Well-formedness of an item heap with `head`/`tail` fields: some id
sequence `L` is chained from `head` with consistent back-pointers, `tail`
points at its last element, the ids are distinct, and the item heap
contains exactly the ids of `L`. -/
def WFparts (items : List (Nat × Item)) (head tail : Option Nat) : Prop :=
  ∃ L, chainB items none head L = true ∧ tail = endp none L ∧
    L.Nodup ∧ (items.map Prod.fst).Perm L

/-- Well-formedness of the LRU list of a store world. -/
def WF (w : World) : Prop :=
  WFparts w.items w.head w.tail

/-- The item heap of `w2` contains no id that was absent from `w1`
(eviction only removes entries). -/
def keySub (w1 w2 : World) : Prop :=
  ∀ k, k ∈ w2.items.map Prod.fst → k ∈ w1.items.map Prod.fst

theorem keep_storable_inv (s : SSt) (h : storableInv s) :
    storableInv (fz_keep_storable s) := by
  unfold fz_keep_storable
  rcases h with ⟨h1, h2⟩ | ⟨h1, h2⟩ <;> split <;>
    simp [storableInv, h2] <;> omega

theorem drop_storable_inv (s : SSt) (h : storableInv s) :
    storableInv (fz_drop_storable s) := by
  unfold fz_drop_storable fz_drop_storable_locked
  rcases h with ⟨h1, h2⟩ | ⟨h1, h2⟩ <;> split_ifs with ha hb <;>
    simp_all [storableInv] <;> omega

theorem runSOps_inv (ops : List SOp) :
    ∀ s : SSt, storableInv s → storableInv (runSOps s ops) := by
  induction ops with
  | nil => intro s h; exact h
  | cons op t ih =>
      intro s h
      cases op with
      | keep => exact ih _ (keep_storable_inv s h)
      | drop => exact ih _ (drop_storable_inv s h)

theorem keep_storable_static (s : SSt) (h : s.refs < 0) :
    fz_keep_storable s = s := by
  unfold fz_keep_storable
  rw [if_neg (by omega)]

theorem drop_storable_static (s : SSt) (h : s.refs < 0) :
    fz_drop_storable s = s := by
  unfold fz_drop_storable fz_drop_storable_locked
  simp [h]

theorem runSOps_static (ops : List SOp) :
    ∀ s : SSt, s.refs < 0 → runSOps s ops = s := by
  induction ops with
  | nil => intro s _; rfl
  | cons op t ih =>
      intro s h
      cases op with
      | keep =>
          show runSOps (fz_keep_storable s) t = s
          rw [keep_storable_static s h]
          exact ih s h
      | drop =>
          show runSOps (fz_drop_storable s) t = s
          rw [drop_storable_static s h]
          exact ih s h

theorem lookupA_cons_self {κ α : Type} [DecidableEq κ] (k : κ) (v : α)
    (t : List (κ × α)) : lookupA ((k, v) :: t) k = some v := by
  simp [lookupA]

theorem lookupA_cons_ne {κ α : Type} [DecidableEq κ] (k0 k' : κ) (v : α)
    (t : List (κ × α)) (h : k0 ≠ k') :
    lookupA ((k0, v) :: t) k' = lookupA t k' := by
  simp [lookupA, h]

theorem setA_cons_self {κ α : Type} [DecidableEq κ] (k : κ) (v0 v : α)
    (t : List (κ × α)) : setA ((k, v0) :: t) k v = (k, v) :: setA t k v := by
  simp [setA]

theorem setA_cons_ne {κ α : Type} [DecidableEq κ] (k0 k : κ) (v0 v : α)
    (t : List (κ × α)) (h : k0 ≠ k) :
    setA ((k0, v0) :: t) k v = (k0, v0) :: setA t k v := by
  simp [setA, h]

theorem removeA_cons_self {κ α : Type} [DecidableEq κ] (k : κ) (v0 : α)
    (t : List (κ × α)) : removeA ((k, v0) :: t) k = removeA t k := by
  simp [removeA]

theorem removeA_cons_ne {κ α : Type} [DecidableEq κ] (k0 k : κ) (v0 : α)
    (t : List (κ × α)) (h : k0 ≠ k) :
    removeA ((k0, v0) :: t) k = (k0, v0) :: removeA t k := by
  simp [removeA, h]

theorem lookupA_setA_self {κ α : Type} [DecidableEq κ] (xs : List (κ × α))
    (k : κ) (v w : α) (h : lookupA xs k = some w) :
    lookupA (setA xs k v) k = some v := by
  induction xs with
  | nil => simp [lookupA] at h
  | cons hd t ih =>
      obtain ⟨k0, v0⟩ := hd
      by_cases hk : k0 = k
      · subst hk
        rw [setA_cons_self, lookupA_cons_self]
      · rw [lookupA_cons_ne k0 k v0 t hk] at h
        rw [setA_cons_ne k0 k v0 v t hk, lookupA_cons_ne k0 k v0 _ hk]
        exact ih h

theorem lookupA_setA_ne {κ α : Type} [DecidableEq κ] (xs : List (κ × α))
    (k k' : κ) (v : α) (h : k' ≠ k) :
    lookupA (setA xs k v) k' = lookupA xs k' := by
  induction xs with
  | nil => rfl
  | cons hd t ih =>
      obtain ⟨k0, v0⟩ := hd
      by_cases hk : k0 = k
      · subst hk
        rw [setA_cons_self, lookupA_cons_ne k0 k' v _ (Ne.symm h),
          lookupA_cons_ne k0 k' v0 t (Ne.symm h)]
        exact ih
      · rw [setA_cons_ne k0 k v0 v t hk]
        by_cases hk' : k0 = k'
        · subst hk'
          rw [lookupA_cons_self, lookupA_cons_self]
        · rw [lookupA_cons_ne k0 k' v0 _ hk', lookupA_cons_ne k0 k' v0 t hk']
          exact ih

theorem lookupA_removeA_self {κ α : Type} [DecidableEq κ] (xs : List (κ × α))
    (k : κ) : lookupA (removeA xs k) k = none := by
  induction xs with
  | nil => rfl
  | cons hd t ih =>
      obtain ⟨k0, v0⟩ := hd
      by_cases hk : k0 = k
      · subst hk
        rw [removeA_cons_self]
        exact ih
      · rw [removeA_cons_ne k0 k v0 t hk, lookupA_cons_ne k0 k v0 _ hk]
        exact ih

theorem lookupA_removeA_ne {κ α : Type} [DecidableEq κ] (xs : List (κ × α))
    (k k' : κ) (h : k' ≠ k) :
    lookupA (removeA xs k) k' = lookupA xs k' := by
  induction xs with
  | nil => rfl
  | cons hd t ih =>
      obtain ⟨k0, v0⟩ := hd
      by_cases hk : k0 = k
      · subst hk
        rw [removeA_cons_self, lookupA_cons_ne k0 k' v0 t (Ne.symm h)]
        exact ih
      · rw [removeA_cons_ne k0 k v0 t hk]
        by_cases hk' : k0 = k'
        · subst hk'
          rw [lookupA_cons_self, lookupA_cons_self]
        · rw [lookupA_cons_ne k0 k' v0 _ hk', lookupA_cons_ne k0 k' v0 t hk']
          exact ih

theorem lookupA_setA_core (items : List (Nat × Item)) (n : Nat)
    (nit nit' : Item) (hn : lookupA items n = some nit)
    (hcore : itemCore nit' = itemCore nit) :
    ∀ j, (lookupA (setA items n nit') j).map itemCore =
      (lookupA items j).map itemCore := by
  intro j
  by_cases hj : j = n
  · subst hj
    rw [lookupA_setA_self items j nit' nit hn, hn]
    simp [hcore]
  · rw [lookupA_setA_ne items n j nit' hj]

theorem unlinkNext_frame (items : List (Nat × Item)) (it : Item)
    (items1 : List (Nat × Item)) (h : unlinkNext items it = some items1) :
    ∀ j, (lookupA items1 j).map itemCore = (lookupA items j).map itemCore := by
  unfold unlinkNext at h
  rcases hnext : it.next with _ | n <;> rw [hnext] at h <;> dsimp only at h
  · cases h
    intro j; rfl
  · rcases hn : lookupA items n with _ | nit <;> rw [hn] at h <;>
      dsimp only [Option.bind] at h
    · cases h
    · cases h
      exact lookupA_setA_core items n nit _ hn rfl

theorem unlinkPrev_frame (items : List (Nat × Item)) (it : Item)
    (items1 : List (Nat × Item)) (h : unlinkPrev items it = some items1) :
    ∀ j, (lookupA items1 j).map itemCore = (lookupA items j).map itemCore := by
  unfold unlinkPrev at h
  rcases hprev : it.prev with _ | p <;> rw [hprev] at h <;> dsimp only at h
  · cases h
    intro j; rfl
  · rcases hp : lookupA items p with _ | pit <;> rw [hp] at h <;>
      dsimp only [Option.bind] at h
    · cases h
    · cases h
      exact lookupA_setA_core items p pit _ hp rfl

theorem unlinkItem_frame (items : List (Nat × Item)) (head tail : Option Nat)
    (it : Item) (items1 : List (Nat × Item)) (h1 t1 : Option Nat)
    (h : unlinkItem items head tail it = some (items1, h1, t1)) :
    ∀ j, (lookupA items1 j).map itemCore = (lookupA items j).map itemCore := by
  unfold unlinkItem at h
  simp only [Option.bind_eq_some] at h
  obtain ⟨itemsA, hA, itemsB, hB, hfin⟩ := h
  simp only [Option.some.injEq, Prod.mk.injEq] at hfin
  obtain ⟨hI, -, -⟩ := hfin
  subst hI
  intro j
  rw [unlinkPrev_frame itemsA it itemsB hB j, unlinkNext_frame items it itemsA hA j]

theorem evict_frame (w : World) (i : Nat) (w' : World) (h : evict w i = some w') :
    ∃ it s, lookupA w.items i = some it ∧
      lookupA w.storables it.val = some s ∧
      lookupA w'.items i = none ∧
      (∀ j, j ≠ i →
        (lookupA w'.items j).map itemCore = (lookupA w.items j).map itemCore) ∧
      (∀ sid, sid ≠ it.val →
        lookupA w'.storables sid = lookupA w.storables sid) := by
  unfold evict at h
  simp only [Option.bind_eq_bind', Option.bind_eq_some, Option.pure_def,
    Option.some.injEq] at h
  obtain ⟨it, hit, s, hs, ⟨items1, head1, tail1⟩, hU, key, hkey, objs1, hobjs, hw⟩ := h
  subst hw
  refine ⟨it, s, hit, hs, ?_, ?_, ?_⟩
  · exact lookupA_removeA_self items1 i
  · intro j hj
    rw [lookupA_removeA_ne items1 i j hj]
    exact unlinkItem_frame w.items w.head w.tail it items1 head1 tail1 hU j
  · intro sid hsid
    have hsal : lookupA (if s.refs > 0 then
          setA w.storables it.val { s with refs := s.refs - 1 }
        else w.storables) sid = lookupA w.storables sid := by
      by_cases hp : s.refs > 0
      · rw [if_pos hp, lookupA_setA_ne w.storables it.val sid _ hsid]
      · rw [if_neg hp]
    by_cases hd : (decide (s.refs > 0) && decide (s.refs - 1 = 0)) = true
    · rw [if_pos hd, lookupA_removeA_ne _ it.val sid hsid]
      exact hsal
    · rw [if_neg hd]
      exact hsal

theorem presNE_refl (w : World) : presNE w w := by
  intro i it s hit hs _
  rw [hit, hs]
  exact ⟨rfl, rfl⟩

theorem itemCore_inv (a b : Item) (h : itemCore a = itemCore b) :
    a.key = b.key ∧ a.val = b.val ∧ a.size = b.size := by
  simp only [itemCore, Prod.mk.injEq] at h
  exact h

theorem presNE_trans (w1 w2 w3 : World) (a : presNE w1 w2) (b : presNE w2 w3) :
    presNE w1 w3 := by
  intro i it s hit hs hne
  obtain ⟨hcore, hstor⟩ := a i it s hit hs hne
  cases hl : lookupA w2.items i with
  | none => rw [hl] at hcore; simp at hcore
  | some it2 =>
      rw [hl] at hcore
      replace hcore := Option.some.inj hcore
      obtain ⟨hk, hv, hsz⟩ := itemCore_inv it2 it hcore
      obtain ⟨hc2, hs2⟩ := b i it2 s hl (by rw [hv]; exact hstor) hne
      refine ⟨?_, ?_⟩
      · rw [hc2, hcore]
      · rw [← hv]; exact hs2

theorem evict_presNE (w : World) (i : Nat) (it : Item) (s : Storable)
    (w' : World) (hit : lookupA w.items i = some it)
    (hs : lookupA w.storables it.val = some s) (h1 : s.refs = 1)
    (h : evict w i = some w') : presNE w w' := by
  obtain ⟨it0, s0, hit0, hs0, hnone, hitems, hstor⟩ := evict_frame w i w' h
  rw [hit] at hit0
  replace hit0 := Option.some.inj hit0
  subst hit0
  rw [hs] at hs0
  replace hs0 := Option.some.inj hs0
  subst hs0
  intro j jt t hjt hst hne
  have hji : j ≠ i := by
    rintro rfl
    rw [hjt] at hit
    replace hit := Option.some.inj hit
    subst hit
    rw [hst] at hs
    replace hs := Option.some.inj hs
    subst hs
    exact hne h1
  have hval : jt.val ≠ it.val := by
    intro hv
    rw [hv] at hst
    rw [hst] at hs
    replace hs := Option.some.inj hs
    subst hs
    exact hne h1
  refine ⟨?_, ?_⟩
  · rw [hitems j hji, hjt]
    rfl
  · rw [hstor jt.val hval, hst]

theorem storable_pin_unpin (t : Storable) :
    ({ refs := t.refs + 1 - 1, freeId := t.freeId } : Storable) = t := by
  cases t
  simp

theorem pinned_evict_presNE (w : World) (i p : Nat) (it : Item) (s : Storable)
    (pit : Item) (ps : Storable) (w2 : World) (pit2 : Item) (ps2 : Storable)
    (hit : lookupA w.items i = some it)
    (hs : lookupA w.storables it.val = some s)
    (h1 : s.refs = 1) (hprev : it.prev = some p)
    (hpit : lookupA w.items p = some pit)
    (hps : lookupA w.storables pit.val = some ps)
    (hev : evict (setStorable w pit.val { ps with refs := ps.refs + 1 }) i =
      some w2)
    (hpit2 : lookupA w2.items p = some pit2)
    (hps2 : lookupA w2.storables pit2.val = some ps2) :
    presNE w (setStorable w2 pit2.val { ps2 with refs := ps2.refs - 1 }) := by
  obtain ⟨it1, s1, hit1, hs1, hnone, hitems, hstor⟩ := evict_frame _ i w2 hev
  have hwi : lookupA (setStorable w pit.val
      { ps with refs := ps.refs + 1 }).items i = lookupA w.items i := rfl
  rw [hwi, hit] at hit1
  replace hit1 := Option.some.inj hit1
  subst hit1
  have hpi : p ≠ i := by
    rintro rfl
    rw [hnone] at hpit2
    cases hpit2
  have hpcore : itemCore pit2 = itemCore pit := by
    have := hitems p hpi
    rw [hpit2] at this
    have hw1p : lookupA (setStorable w pit.val
        { ps with refs := ps.refs + 1 }).items p = lookupA w.items p := rfl
    rw [hw1p, hpit] at this
    simpa using this
  have hpval : pit2.val = pit.val := (itemCore_inv pit2 pit hpcore).2.1
  intro j jt t hjt hst hne
  have hji : j ≠ i := by
    rintro rfl
    rw [hjt] at hit
    replace hit := Option.some.inj hit
    subst hit
    rw [hst] at hs
    replace hs := Option.some.inj hs
    subst hs
    exact hne h1
  have hvalne : jt.val ≠ it.val := by
    intro hv
    rw [hv] at hst
    rw [hst] at hs
    replace hs := Option.some.inj hs
    subst hs
    exact hne h1
  constructor
  · show (lookupA w2.items j).map itemCore = some (itemCore jt)
    rw [hitems j hji]
    have : lookupA (setStorable w pit.val
        { ps with refs := ps.refs + 1 }).items j = lookupA w.items j := rfl
    rw [this, hjt]
    rfl
  · show lookupA (setA w2.storables pit2.val
      { ps2 with refs := ps2.refs - 1 }) jt.val = some t
    by_cases hcase : pit.val = jt.val
    · have hps_t : ps = t := by
        rw [hcase] at hps
        rw [hps] at hst
        exact Option.some.inj hst
      subst hps_t
      have hw1 : lookupA (setStorable w pit.val
          { ps with refs := ps.refs + 1 }).storables jt.val =
          some { ps with refs := ps.refs + 1 } := by
        show lookupA (setA w.storables pit.val { ps with refs := ps.refs + 1 })
          jt.val = _
        rw [← hcase]
        exact lookupA_setA_self w.storables pit.val _ ps hps
      have hw2 : lookupA w2.storables jt.val = some { ps with refs := ps.refs + 1 } := by
        rw [hstor jt.val hvalne]
        exact hw1
      have hps2_eq : ps2 = { ps with refs := ps.refs + 1 } := by
        rw [hpval, hcase] at hps2
        rw [hps2] at hw2
        exact Option.some.inj hw2
      have : lookupA (setA w2.storables pit2.val { ps2 with refs := ps2.refs - 1 })
          jt.val = some { ps2 with refs := ps2.refs - 1 } := by
        rw [← hcase, ← hpval] at hw2 ⊢
        exact lookupA_setA_self w2.storables pit2.val _ ps2 hps2
      rw [this, hps2_eq]
      exact congrArg some (storable_pin_unpin ps)
    · have hne2 : jt.val ≠ pit2.val := by
        rw [hpval]
        exact fun hc => hcase hc.symm
      rw [lookupA_setA_ne w2.storables pit2.val jt.val _ hne2]
      rw [hstor jt.val hvalne]
      show lookupA (setA w.storables pit.val { ps with refs := ps.refs + 1 })
        jt.val = some t
      rw [lookupA_setA_ne w.storables pit.val jt.val _
        (fun hc => hcase hc.symm)]
      exact hst

theorem pass2_presNE (fuel : Nat) :
    ∀ (w : World) (cur : Option Nat) (count tofree : Nat) (w' : World) (c : Nat),
      pass2 fuel w cur count tofree = some (w', c) → presNE w w' := by
  induction fuel with
  | zero =>
      intro w cur count tofree w' c h
      simp [pass2] at h
  | succ fuel ih =>
      intro w cur count tofree w' c h
      cases cur with
      | none =>
          simp only [pass2, Option.some.injEq, Prod.mk.injEq] at h
          obtain ⟨rfl, -⟩ := h
          exact presNE_refl w
      | some i =>
          simp only [pass2, Option.bind_eq_bind', Option.bind_eq_some] at h
          obtain ⟨it, hit, s, hs, h⟩ := h
          by_cases hr : s.refs = 1
          · rw [if_pos hr] at h
            rcases hprev : it.prev with _ | p <;> rw [hprev] at h
            · simp only [Option.pure_def, Option.bind_eq_bind', Option.bind_eq_some,
                Option.some.injEq] at h
              obtain ⟨w1, hw1, w2, hev, hcontra⟩ := h
              cases hcontra
            · simp only [Option.pure_def, Option.bind_eq_bind', Option.bind_eq_some,
                Option.some.injEq] at h
              obtain ⟨pit, hpit, ps, hps, w1, hw1, w2, hev, pit2, hpit2,
                ps2, hps2, hfin⟩ := h
              subst hw1
              have base := pinned_evict_presNE w i p it s pit ps w2 pit2 ps2
                hit hs hr hprev hpit hps hev hpit2 hps2
              by_cases hc : uadd count it.size ≥ tofree
              · rw [if_pos hc] at hfin
                simp only [Option.some.injEq, Prod.mk.injEq] at hfin
                obtain ⟨hw', -⟩ := hfin
                rw [← hw']
                exact base
              · rw [if_neg hc] at hfin
                exact presNE_trans _ _ _ base (ih _ _ _ _ _ _ hfin)
          · rw [if_neg hr] at h
            exact ih _ _ _ _ _ _ h

theorem scavenge_loop_presNE (fuel : Nat) :
    ∀ (w : World) (cur : Option Nat) (count tofree : Nat) (w' : World) (c : Nat),
      scavenge_loop fuel w cur count tofree = some (w', c) → presNE w w' := by
  induction fuel with
  | zero =>
      intro w cur count tofree w' c h
      simp [scavenge_loop] at h
  | succ fuel ih =>
      intro w cur count tofree w' c h
      cases cur with
      | none =>
          simp only [scavenge_loop, Option.some.injEq, Prod.mk.injEq] at h
          obtain ⟨rfl, -⟩ := h
          exact presNE_refl w
      | some i =>
          simp only [scavenge_loop, Option.bind_eq_bind', Option.bind_eq_some] at h
          obtain ⟨it, hit, s, hs, h⟩ := h
          by_cases hr : s.refs = 1
          · rw [if_pos hr] at h
            simp only [Option.bind_eq_bind', Option.bind_eq_some] at h
            obtain ⟨w1, hev, h⟩ := h
            have base := evict_presNE w i it s w1 hit hs hr hev
            by_cases hc : uadd count it.size ≥ tofree
            · rw [if_pos hc] at h
              simp only [Option.some.injEq, Prod.mk.injEq] at h
              obtain ⟨hw', -⟩ := h
              rw [← hw']
              exact base
            · rw [if_neg hc] at h
              exact presNE_trans _ _ _ base (ih _ _ _ _ _ _ h)
          · rw [if_neg hr] at h
            exact ih _ _ _ _ _ _ h

theorem ensure_space_presNE (w : World) (tofree : Nat) (w' : World) (c : Nat)
    (h : ensure_space w tofree = some (w', c)) : presNE w w' := by
  unfold ensure_space at h
  simp only [Option.bind_eq_bind', Option.bind_eq_some] at h
  obtain ⟨b, hb, h⟩ := h
  cases b
  · simp only [Bool.false_eq_true, if_neg, Option.some.injEq, Prod.mk.injEq,
      ite_false] at h
    obtain ⟨rfl, -⟩ := h
    exact presNE_refl w
  · simp only [if_pos] at h
    exact pass2_presNE _ _ _ _ _ _ _ h

theorem scavenge_presNE (w : World) (tofree : Nat) (w' : World) (ok : Bool)
    (h : scavenge w tofree = some (w', ok)) : presNE w w' := by
  unfold scavenge at h
  simp only [Option.bind_eq_bind', Option.bind_eq_some, Option.pure_def,
    Option.some.injEq, Prod.mk.injEq] at h
  obtain ⟨⟨w1, c1⟩, hloop, hw, -⟩ := h
  rw [← hw]
  exact scavenge_loop_presNE _ _ _ _ _ _ _ hloop

theorem endp_append (p : Option Nat) (X Y : List Nat) :
    endp p (X ++ Y) = endp (endp p X) Y := by
  induction X generalizing p with
  | nil => rfl
  | cons a X ih => simpa [endp] using ih (some a)

theorem endp_cons_indep (x y : Option Nat) (b : Nat) (B : List Nat) :
    endp x (b :: B) = endp y (b :: B) := rfl

theorem endp_some (A : List Nat) : ∀ x : Nat, ∃ y, endp (some x) A = some y := by
  induction A with
  | nil => exact fun x => ⟨x, rfl⟩
  | cons a A ih => exact fun x => ih a

theorem endp_mem (A : List Nat) :
    ∀ (p : Option Nat) (q : Nat), A ≠ [] → endp p A = some q → q ∈ A := by
  induction A with
  | nil => intro p q h _; exact absurd rfl h
  | cons a A ih =>
      intro p q _ h
      cases A with
      | nil =>
          simp only [endp] at h
          cases h
          exact List.mem_cons_self a []
      | cons a2 A2 =>
          exact List.mem_cons_of_mem a
            (ih (some a) q (List.cons_ne_nil a2 A2) h)

theorem chainB_head (items : List (Nat × Item)) (p c : Option Nat)
    (L : List Nat) (h : chainB items p c L = true) : c = L.head? := by
  cases L with
  | nil => simpa [chainB] using h
  | cons i L =>
      simp only [chainB] at h
      cases hl : lookupA items i with
      | none => rw [hl] at h; cases h
      | some it =>
          rw [hl] at h
          simp only [Bool.and_eq_true, decide_eq_true_eq] at h
          exact h.1.1

theorem chainB_frame (items items2 : List (Nat × Item)) :
    ∀ (L : List Nat) (p c : Option Nat),
      (∀ j, j ∈ L → lookupA items2 j = lookupA items j) →
      chainB items p c L = true → chainB items2 p c L = true := by
  intro L
  induction L with
  | nil => intro p c _ h; exact h
  | cons i L ih =>
      intro p c hsame h
      simp only [chainB] at h ⊢
      cases hl : lookupA items i with
      | none => rw [hl] at h; cases h
      | some it =>
          rw [hl] at h
          rw [hsame i (List.mem_cons_self i L), hl]
          simp only [Bool.and_eq_true, decide_eq_true_eq] at h ⊢
          exact ⟨h.1, ih (some i) it.next
            (fun j hj => hsame j (List.mem_cons_of_mem i hj)) h.2⟩

theorem chainB_lookup_head (items : List (Nat × Item)) (p : Option Nat)
    (i : Nat) (L : List Nat) (c : Option Nat)
    (h : chainB items p c (i :: L) = true) :
    ∃ it, lookupA items i = some it ∧ c = some i ∧ it.prev = p ∧
      chainB items (some i) it.next L = true := by
  simp only [chainB] at h
  cases hl : lookupA items i with
  | none => rw [hl] at h; cases h
  | some it =>
      rw [hl] at h
      simp only [Bool.and_eq_true, decide_eq_true_eq] at h
      exact ⟨it, rfl, h.1.1, h.1.2, h.2⟩

theorem lookupA_some_mem {κ α : Type} [DecidableEq κ] (xs : List (κ × α))
    (k : κ) (v : α) (h : lookupA xs k = some v) : k ∈ xs.map Prod.fst := by
  induction xs with
  | nil => cases h
  | cons hd t ih =>
      obtain ⟨k0, v0⟩ := hd
      by_cases hk : k0 = k
      · subst hk; exact List.mem_cons_self k0 _
      · rw [lookupA_cons_ne k0 k v0 t hk] at h
        exact List.mem_cons_of_mem k0 (ih h)

theorem map_fst_setA {κ α : Type} [DecidableEq κ] (xs : List (κ × α))
    (k : κ) (v : α) : (setA xs k v).map Prod.fst = xs.map Prod.fst := by
  induction xs with
  | nil => rfl
  | cons hd t ih =>
      obtain ⟨k0, v0⟩ := hd
      by_cases hk : k0 = k
      · subst hk
        rw [setA_cons_self]
        simpa using ih
      · rw [setA_cons_ne k0 k v0 v t hk]
        simpa using ih

theorem map_fst_removeA {κ α : Type} [DecidableEq κ] (xs : List (κ × α))
    (k : κ) : (removeA xs k).map Prod.fst =
      (xs.map Prod.fst).filter (fun x => decide (x ≠ k)) := by
  induction xs with
  | nil => rfl
  | cons hd t ih =>
      obtain ⟨k0, v0⟩ := hd
      by_cases hk : k0 = k
      · subst hk
        rw [removeA_cons_self]
        simp [ih]
      · rw [removeA_cons_ne k0 k v0 t hk]
        simp [ih, hk]

theorem chain_fields (items : List (Nat × Item)) (i : Nat) (it : Item)
    (hit : lookupA items i = some it) (B : List Nat) :
    ∀ (A : List Nat) (p c : Option Nat),
      chainB items p c (A ++ i :: B) = true →
      it.prev = endp p A ∧ it.next = B.head? := by
  intro A
  induction A with
  | nil =>
      intro p c h
      simp only [List.nil_append] at h
      obtain ⟨it0, hit0, -, hprev, hchain⟩ := chainB_lookup_head items p i B c h
      rw [hit] at hit0
      replace hit0 := Option.some.inj hit0
      subst hit0
      exact ⟨hprev, chainB_head items (some i) it.next B hchain⟩
  | cons a A ih =>
      intro p c h
      simp only [List.cons_append] at h
      obtain ⟨ait, -, -, -, hchain⟩ :=
        chainB_lookup_head items p a (A ++ i :: B) c h
      exact ih (some a) ait.next hchain

theorem chainB_cons_intro (items2 : List (Nat × Item)) (p c : Option Nat)
    (a : Nat) (rest : List Nat) (cell : Item) (h1 : c = some a)
    (h2 : lookupA items2 a = some cell) (h3 : cell.prev = p)
    (h4 : chainB items2 (some a) cell.next rest = true) :
    chainB items2 p c (a :: rest) = true := by
  have : chainB items2 p c (a :: rest) =
      (decide (c = some a) && decide (cell.prev = p) &&
        chainB items2 (some a) cell.next rest) := by
    simp only [chainB]
    rw [h2]
  rw [this]
  simp [h1, h3, h4]

theorem chain_splice (items items2 : List (Nat × Item)) (i : Nat) (it : Item)
    (b? q? : Option Nat) (B : List Nat)
    (hit : lookupA items i = some it)
    (hbB : B.head? = b?)
    (hqBi : ∀ q, q? = some q → q ∉ i :: B)
    (hframe : ∀ j, b? ≠ some j → q? ≠ some j →
      lookupA items2 j = lookupA items j)
    (hb : ∀ b, b? = some b → ∃ bit, lookupA items b = some bit ∧
      lookupA items2 b = some { bit with prev := q? })
    (hq : ∀ q, q? = some q → ∃ qit, lookupA items q = some qit ∧
      lookupA items2 q = some { qit with next := b? }) :
    ∀ (A : List Nat) (p c : Option Nat),
      chainB items p c (A ++ i :: B) = true →
      (A ++ i :: B).Nodup →
      endp p A = q? →
      chainB items2 p (if A = [] then b? else c) (A ++ B) = true := by
  intro A
  induction A with
  | nil =>
      intro p c h hnodup hendp
      have hpq : p = q? := hendp
      simp only [List.nil_append] at h hnodup
      show chainB items2 p b? ([] ++ B) = true
      simp only [List.nil_append]
      obtain ⟨it0, hit0, -, hprev, hchain⟩ := chainB_lookup_head items p i B c h
      rw [hit] at hit0
      replace hit0 := Option.some.inj hit0
      subst hit0
      cases hB : B with
      | nil =>
          subst hB
          simp only [List.head?_nil] at hbB
          rw [← hbB]
          simp [chainB]
      | cons b B2 =>
          subst hB
          simp only [List.head?_cons] at hbB
          obtain ⟨bit0, hbit0, hnext, hbprev, hchain2⟩ :=
            chainB_lookup_head items (some i) b B2 it.next hchain
          obtain ⟨bit, hbitlk, hbit2⟩ := hb b hbB.symm
          have hbb : bit = bit0 := by
            rw [hbit0] at hbitlk
            exact (Option.some.inj hbitlk).symm
          rw [hbb] at hbit2
          refine chainB_cons_intro items2 p b? b B2 _ hbB.symm hbit2 hpq.symm ?_
          show chainB items2 (some b) bit0.next B2 = true
          apply chainB_frame items items2 B2 (some b) bit0.next
          · intro j hj
            apply hframe j
            · rw [← hbB]
              intro hc
              replace hc := Option.some.inj hc
              subst hc
              have hbn : b ∉ B2 := by
                simp only [List.nodup_cons] at hnodup
                exact hnodup.2.1
              exact hbn hj
            · intro hc
              rcases hqv : q? with _ | q0
              · rw [hqv] at hc; cases hc
              · rw [hqv] at hc
                replace hc := Option.some.inj hc
                apply hqBi q0 hqv
                rw [hc]
                exact List.mem_cons_of_mem i (List.mem_cons_of_mem b hj)
          · exact hchain2
  | cons a A ih =>
      intro p c h hnodup hendp
      simp only [List.cons_append] at h hnodup
      obtain ⟨ait, hait, hc, haprev, hchain⟩ :=
        chainB_lookup_head items p a (A ++ i :: B) c h
      have hnodup2 : (A ++ i :: B).Nodup := (List.nodup_cons.mp hnodup).2
      have hanotin : a ∉ A ++ i :: B := (List.nodup_cons.mp hnodup).1
      have hendp2 : endp (some a) A = q? := hendp
      have IH := ih (some a) ait.next hchain hnodup2 hendp2
      show chainB items2 p (if (a :: A : List Nat) = [] then b? else c)
        ((a :: A) ++ B) = true
      rw [if_neg (List.cons_ne_nil a A)]
      simp only [List.cons_append]
      cases hA : A with
      | nil =>
          subst hA
          have hqa : q? = some a := by rw [← hendp2]; rfl
          obtain ⟨qit, hqlk, hq2⟩ := hq a hqa
          rw [hait] at hqlk
          replace hqlk := Option.some.inj hqlk
          subst hqlk
          refine chainB_cons_intro items2 p c a ([] ++ B) _ hc hq2 haprev ?_
          show chainB items2 (some a) b? ([] ++ B) = true
          rw [if_pos rfl] at IH
          exact IH
      | cons a2 A2 =>
          subst hA
          have hAne : (a2 :: A2 : List Nat) ≠ [] := List.cons_ne_nil a2 A2
          have hqmem : ∀ q, q? = some q → q ∈ a2 :: A2 := by
            intro q hqv
            exact endp_mem (a2 :: A2) (some a) q hAne (by rw [hendp2, hqv])
          have hcell : lookupA items2 a = some ait := by
            rw [hframe a]
            · exact hait
            · rw [← hbB]
              cases hBc : B with
              | nil => simp
              | cons b B2 =>
                  subst hBc
                  simp only [List.head?_cons, ne_eq, Option.some.injEq]
                  intro hba
                  apply hanotin
                  rw [← hba]
                  exact List.mem_append_right (a2 :: A2)
                    (List.mem_cons_of_mem i (List.mem_cons_self b B2))
            · intro hcq
              rcases hqv : q? with _ | q0
              · rw [hqv] at hcq; cases hcq
              · rw [hqv] at hcq
                replace hcq := Option.some.inj hcq
                apply hanotin
                apply List.mem_append_left (i :: B)
                rw [← hcq]
                exact hqmem q0 hqv
          refine chainB_cons_intro items2 p c a ((a2 :: A2) ++ B) _ hc hcell
            haprev ?_
          show chainB items2 (some a) ait.next ((a2 :: A2) ++ B) = true
          rw [if_neg hAne] at IH
          exact IH

theorem unlink_splice (items : List (Nat × Item)) (head tail : Option Nat)
    (i : Nat) (it : Item) (A B : List Nat)
    (hchain : chainB items none head (A ++ i :: B) = true)
    (htail : tail = endp none (A ++ i :: B))
    (hnodup : (A ++ i :: B).Nodup)
    (hit : lookupA items i = some it)
    (items1 : List (Nat × Item)) (head1 tail1 : Option Nat)
    (hU : unlinkItem items head tail it = some (items1, head1, tail1)) :
    chainB items1 none head1 (A ++ B) = true ∧
    tail1 = endp none (A ++ B) ∧
    lookupA items1 i = some it ∧
    items1.map Prod.fst = items.map Prod.fst := by
  obtain ⟨hPA, hNB⟩ := chain_fields items i it hit B A none head hchain
  have hsplit := List.nodup_append.mp hnodup
  have hiA : i ∉ A := fun hm => hsplit.2.2 hm (List.mem_cons_self i B)
  have hiB : i ∉ B := (List.nodup_cons.mp hsplit.2.1).1
  have hqprop : ∀ q, it.prev = some q → q ∈ A ∧ q ∉ i :: B := by
    intro q hqv
    have hAne : A ≠ [] := by
      intro hA
      rw [hA] at hPA
      rw [hPA] at hqv
      cases hqv
    have hqA : q ∈ A := endp_mem A none q hAne (by rw [← hPA, hqv])
    exact ⟨hqA, fun hm => hsplit.2.2 hqA hm⟩
  have hbprop : ∀ b, it.next = some b → b ∈ B := by
    intro b hbv
    rw [hNB] at hbv
    cases B with
    | nil => cases hbv
    | cons b0 B2 =>
        simp only [List.head?_cons] at hbv
        replace hbv := Option.some.inj hbv
        rw [← hbv]
        exact List.mem_cons_self b0 B2
  unfold unlinkItem at hU
  simp only [Option.bind_eq_some] at hU
  obtain ⟨itemsA, hA1, itemsB, hB1, hfin⟩ := hU
  simp only [Option.some.injEq, Prod.mk.injEq] at hfin
  obtain ⟨hI, hH, hT⟩ := hfin
  subst hI
  have hAfacts : (∀ j, it.next ≠ some j → lookupA itemsA j = lookupA items j) ∧
      (∀ b, it.next = some b → ∃ nit, lookupA items b = some nit ∧
        lookupA itemsA b = some { nit with prev := it.prev }) ∧
      itemsA.map Prod.fst = items.map Prod.fst := by
    unfold unlinkNext at hA1
    rcases hnextE : it.next with _ | b <;> rw [hnextE] at hA1 <;>
      dsimp only at hA1
    · cases hA1
      exact ⟨fun j _ => rfl, fun b hb => Option.noConfusion hb, rfl⟩
    · rcases hnb : lookupA items b with _ | nit <;> rw [hnb] at hA1 <;>
        dsimp only [Option.bind] at hA1
      · cases hA1
      · cases hA1
        refine ⟨?_, ?_, map_fst_setA items b _⟩
        · intro j hj
          have : b ≠ j := fun hc => hj (congrArg some hc)
          exact lookupA_setA_ne items b j _ (fun hc => this hc.symm)
        · intro b2 hb2
          replace hb2 := Option.some.inj hb2
          subst hb2
          exact ⟨nit, hnb, lookupA_setA_self items b _ nit hnb⟩
  obtain ⟨hAframe, hAb, hAkeys⟩ := hAfacts
  have hBfacts : (∀ j, it.prev ≠ some j → lookupA itemsB j = lookupA itemsA j) ∧
      (∀ q, it.prev = some q → ∃ qitA, lookupA itemsA q = some qitA ∧
        lookupA itemsB q = some { qitA with next := it.next }) ∧
      itemsB.map Prod.fst = itemsA.map Prod.fst := by
    unfold unlinkPrev at hB1
    rcases hprevE : it.prev with _ | q <;> rw [hprevE] at hB1 <;>
      dsimp only at hB1
    · cases hB1
      exact ⟨fun j _ => rfl, fun q hq => Option.noConfusion hq, rfl⟩
    · rcases hnq : lookupA itemsA q with _ | qitA <;> rw [hnq] at hB1 <;>
        dsimp only [Option.bind] at hB1
      · cases hB1
      · cases hB1
        refine ⟨?_, ?_, map_fst_setA itemsA q _⟩
        · intro j hj
          have : q ≠ j := fun hc => hj (congrArg some hc)
          exact lookupA_setA_ne itemsA q j _ (fun hc => this hc.symm)
        · intro q2 hq2
          replace hq2 := Option.some.inj hq2
          subst hq2
          exact ⟨qitA, hnq, lookupA_setA_self itemsA q _ qitA hnq⟩
  obtain ⟨hBframe, hBq, hBkeys⟩ := hBfacts
  have hqb_ne : ∀ q b, it.prev = some q → it.next = some b → q ≠ b := by
    intro q b hq hb hc
    subst hc
    exact (hqprop q hq).2 (List.mem_cons_of_mem i (hbprop q hb))
  have hmain := chain_splice items itemsB i it it.next it.prev B hit hNB.symm
    (fun q hqv => (hqprop q hqv).2)
    (fun j hbj hqj => by rw [hBframe j hqj, hAframe j hbj])
    (fun b hbv => by
      obtain ⟨nit, h1, h2⟩ := hAb b hbv
      refine ⟨nit, h1, ?_⟩
      rw [hBframe b]
      · exact h2
      · intro hc
        exact hqb_ne b b hc hbv rfl)
    (fun q hqv => by
      obtain ⟨qitA, h1, h2⟩ := hBq q hqv
      have hq_items : lookupA items q = some qitA := by
        rw [← hAframe q]
        · exact h1
        · intro hc
          exact hqb_ne q q hqv hc rfl
      exact ⟨qitA, hq_items, h2⟩)
    A none head hchain hnodup hPA.symm
  have hhead1 : head1 = (if A = [] then it.next else head) := by
    rw [← hH]
    cases hA2 : A with
    | nil =>
        subst hA2
        have hpn : it.prev = none := by rw [hPA]; rfl
        rw [hpn]
        rfl
    | cons a A2 =>
        subst hA2
        obtain ⟨y, hy⟩ := endp_some A2 a
        have hps : it.prev = some y := by rw [hPA]; exact hy
        rw [hps]
        rw [if_neg (List.cons_ne_nil a A2)]
  refine ⟨?_, ?_, ?_, ?_⟩
  · rw [hhead1]
    exact hmain
  · rw [← hT, htail]
    cases hB : B with
    | nil =>
        subst hB
        have hnone : it.next = none := by rw [hNB]; rfl
        rw [hnone, hPA]
        simp
    | cons b B2 =>
        subst hB
        have hsome : it.next = some b := by rw [hNB]; rfl
        rw [hsome]
        rw [endp_append, endp_append]
        rfl
  · have h1 : lookupA itemsB i = lookupA itemsA i := by
      apply hBframe
      intro hc
      exact (hqprop i hc).2 (List.mem_cons_self i B)
    have h2 : lookupA itemsA i = lookupA items i := by
      apply hAframe
      intro hc
      exact hiB (hbprop i hc)
    rw [h1, h2, hit]
  · rw [hBkeys, hAkeys]

theorem filter_ne_middle (A B : List Nat) (i : Nat)
    (hnodup : (A ++ i :: B).Nodup) :
    (A ++ i :: B).filter (fun x => decide (x ≠ i)) = A ++ B := by
  have hsplit := List.nodup_append.mp hnodup
  have hiA : i ∉ A := fun hm => hsplit.2.2 hm (List.mem_cons_self i B)
  have hiB : i ∉ B := (List.nodup_cons.mp hsplit.2.1).1
  rw [List.filter_append]
  have h1 : A.filter (fun x => decide (x ≠ i)) = A := by
    apply List.filter_eq_self.mpr
    intro a ha
    simp only [ne_eq, decide_not, Bool.not_eq_eq_eq_not, Bool.not_true,
      decide_eq_false_iff_not]
    intro hc
    subst hc
    exact hiA ha
  have h2 : (i :: B).filter (fun x => decide (x ≠ i)) = B := by
    rw [List.filter_cons_of_neg (by simp)]
    apply List.filter_eq_self.mpr
    intro b hb
    simp only [ne_eq, decide_not, Bool.not_eq_eq_eq_not, Bool.not_true,
      decide_eq_false_iff_not]
    intro hc
    subst hc
    exact hiB hb
  rw [h1, h2]

theorem nodup_drop_middle (A B : List Nat) (i : Nat)
    (hnodup : (A ++ i :: B).Nodup) : (A ++ B).Nodup := by
  have hsub : (A ++ B).Sublist (A ++ i :: B) := by
    apply List.Sublist.append_left
    exact List.sublist_cons_self i B
  exact hnodup.sublist hsub

theorem unlink_remove_WFparts (items : List (Nat × Item))
    (head tail : Option Nat) (i : Nat) (it : Item)
    (items1 : List (Nat × Item)) (head1 tail1 : Option Nat)
    (hwf : WFparts items head tail) (hit : lookupA items i = some it)
    (hU : unlinkItem items head tail it = some (items1, head1, tail1)) :
    WFparts (removeA items1 i) head1 tail1 := by
  obtain ⟨L, hchain, htail, hnodup, hperm⟩ := hwf
  have hiL : i ∈ L := (hperm.mem_iff).mp (lookupA_some_mem items i it hit)
  obtain ⟨A, B, hL⟩ := List.append_of_mem hiL
  subst hL
  obtain ⟨hchain1, htail1, hi1, hkeys1⟩ := unlink_splice items head tail i it
    A B hchain htail hnodup hit items1 head1 tail1 hU
  refine ⟨A ++ B, ?_, htail1, nodup_drop_middle A B i hnodup, ?_⟩
  · apply chainB_frame items1 (removeA items1 i) (A ++ B) none head1
    · intro j hj
      apply lookupA_removeA_ne
      intro hc
      subst hc
      have hsplit := List.nodup_append.mp hnodup
      rcases List.mem_append.mp hj with hja | hjb
      · exact hsplit.2.2 hja (List.mem_cons_self j B)
      · exact (List.nodup_cons.mp hsplit.2.1).1 hjb
    · exact hchain1
  · rw [map_fst_removeA, hkeys1]
    have := hperm.filter (fun x => decide (x ≠ i))
    rw [filter_ne_middle A B i hnodup] at this
    exact this

theorem chain_repoint (items2 : List (Nat × Item)) (h : Nat) (hit2 : Item)
    (L2 : List Nat) (p p2 : Option Nat)
    (hch : chainB items2 p (some h) (h :: L2) = true)
    (hh : lookupA items2 h = some hit2)
    (hnotin : h ∉ L2) :
    chainB (setA items2 h { hit2 with prev := p2 }) p2 (some h) (h :: L2) =
      true := by
  obtain ⟨cell, hcell, -, -, hrest⟩ :=
    chainB_lookup_head items2 p h L2 (some h) hch
  rw [hh] at hcell
  replace hcell := Option.some.inj hcell
  subst hcell
  apply chainB_cons_intro _ p2 (some h) h L2 { hit2 with prev := p2 } rfl
    (lookupA_setA_self items2 h _ hit2 hh) rfl
  show chainB (setA items2 h { hit2 with prev := p2 }) (some h) hit2.next L2 =
    true
  apply chainB_frame items2 _ L2 (some h) hit2.next
  · intro j hj
    exact lookupA_setA_ne items2 h j _ (fun hc => hnotin (hc ▸ hj))
  · exact hrest

theorem unlinkItem_keys (items : List (Nat × Item)) (head tail : Option Nat)
    (it : Item) (items1 : List (Nat × Item)) (h1 t1 : Option Nat)
    (h : unlinkItem items head tail it = some (items1, h1, t1)) :
    items1.map Prod.fst = items.map Prod.fst := by
  unfold unlinkItem at h
  simp only [Option.bind_eq_some] at h
  obtain ⟨itemsA, hA, itemsB, hB, hfin⟩ := h
  simp only [Option.some.injEq, Prod.mk.injEq] at hfin
  obtain ⟨hI, -, -⟩ := hfin
  subst hI
  have hAk : itemsA.map Prod.fst = items.map Prod.fst := by
    unfold unlinkNext at hA
    rcases hnext : it.next with _ | n <;> rw [hnext] at hA <;> dsimp only at hA
    · cases hA; rfl
    · rcases hn : lookupA items n with _ | nit <;> rw [hn] at hA <;>
        dsimp only [Option.bind] at hA
      · cases hA
      · cases hA
        exact map_fst_setA items n _
  have hBk : itemsB.map Prod.fst = itemsA.map Prod.fst := by
    unfold unlinkPrev at hB
    rcases hprev : it.prev with _ | p <;> rw [hprev] at hB <;> dsimp only at hB
    · cases hB; rfl
    · rcases hp : lookupA itemsA p with _ | pit <;> rw [hp] at hB <;>
        dsimp only [Option.bind] at hB
      · cases hB
      · cases hB
        exact map_fst_setA itemsA p _
  rw [hBk, hAk]

theorem evict_WF_keys (w : World) (i : Nat) (w' : World)
    (h : evict w i = some w') : (WF w → WF w') ∧ keySub w w' := by
  unfold evict at h
  simp only [Option.bind_eq_bind', Option.bind_eq_some, Option.pure_def,
    Option.some.injEq] at h
  obtain ⟨it, hit, s, hs, ⟨items1, head1, tail1⟩, hU, key, hkey, objs1,
    hobjs, hw⟩ := h
  subst hw
  constructor
  · intro hwf
    exact unlink_remove_WFparts w.items w.head w.tail i it items1 head1 tail1
      hwf hit hU
  · intro k hk
    simp only [map_fst_removeA] at hk
    rw [unlinkItem_keys w.items w.head w.tail it items1 head1 tail1 hU] at hk
    exact (List.mem_filter.mp hk).1

theorem keySub_refl (w : World) : keySub w w := fun _ h => h

theorem keySub_trans (w1 w2 w3 : World) (a : keySub w1 w2) (b : keySub w2 w3) :
    keySub w1 w3 := fun k hk => a k (b k hk)

theorem setStorable_items (w : World) (sid : Nat) (s : Storable) :
    (setStorable w sid s).items = w.items := rfl

theorem pass2_WF_keys (fuel : Nat) :
    ∀ (w : World) (cur : Option Nat) (count tofree : Nat) (w' : World) (c : Nat),
      pass2 fuel w cur count tofree = some (w', c) →
      (WF w → WF w') ∧ keySub w w' := by
  induction fuel with
  | zero =>
      intro w cur count tofree w' c h
      simp [pass2] at h
  | succ fuel ih =>
      intro w cur count tofree w' c h
      cases cur with
      | none =>
          simp only [pass2, Option.some.injEq, Prod.mk.injEq] at h
          obtain ⟨rfl, -⟩ := h
          exact ⟨fun hwf => hwf, keySub_refl w⟩
      | some i =>
          simp only [pass2, Option.bind_eq_bind', Option.bind_eq_some] at h
          obtain ⟨it, hit, s, hs, h⟩ := h
          by_cases hr : s.refs = 1
          · rw [if_pos hr] at h
            rcases hprev : it.prev with _ | p <;> rw [hprev] at h
            · simp only [Option.pure_def, Option.bind_eq_bind',
                Option.bind_eq_some, Option.some.injEq] at h
              obtain ⟨w1, hw1, w2, hev, hcontra⟩ := h
              cases hcontra
            · simp only [Option.pure_def, Option.bind_eq_bind',
                Option.bind_eq_some, Option.some.injEq] at h
              obtain ⟨pit, hpit, ps, hps, w1, hw1, w2, hev, pit2, hpit2,
                ps2, hps2, hfin⟩ := h
              subst hw1
              have hev2 := evict_WF_keys _ i w2 hev
              have base : (WF w → WF (setStorable w2 pit2.val
                  { ps2 with refs := ps2.refs - 1 })) ∧
                  keySub w (setStorable w2 pit2.val
                    { ps2 with refs := ps2.refs - 1 }) := by
                constructor
                · intro hwf
                  exact hev2.1 hwf
                · intro k hk
                  exact hev2.2 k hk
              by_cases hc : uadd count it.size ≥ tofree
              · rw [if_pos hc] at hfin
                simp only [Option.some.injEq, Prod.mk.injEq] at hfin
                obtain ⟨hw', -⟩ := hfin
                rw [← hw']
                exact base
              · rw [if_neg hc] at hfin
                have rest := ih _ _ _ _ _ _ hfin
                exact ⟨fun hwf => rest.1 (base.1 hwf),
                  keySub_trans _ _ _ base.2 rest.2⟩
          · rw [if_neg hr] at h
            exact ih _ _ _ _ _ _ h

theorem ensure_space_WF_keys (w : World) (tofree : Nat) (w' : World) (c : Nat)
    (h : ensure_space w tofree = some (w', c)) :
    (WF w → WF w') ∧ keySub w w' := by
  unfold ensure_space at h
  simp only [Option.bind_eq_bind', Option.bind_eq_some] at h
  obtain ⟨b, hb, h⟩ := h
  cases b
  · simp only [Bool.false_eq_true, if_neg, Option.some.injEq, Prod.mk.injEq,
      ite_false] at h
    obtain ⟨rfl, -⟩ := h
    exact ⟨fun hwf => hwf, keySub_refl w⟩
  · simp only [if_pos] at h
    exact pass2_WF_keys _ _ _ _ _ _ _ h

theorem ensure_space_loop_WF_keys (fuel : Nat) :
    ∀ (w : World) (sizeV maxV : Nat) (w' : World) (b : Bool),
      ensure_space_loop fuel w sizeV maxV = some (w', b) →
      (WF w → WF w') ∧ keySub w w' := by
  induction fuel with
  | zero =>
      intro w sizeV maxV w' b h
      simp [ensure_space_loop] at h
  | succ fuel ih =>
      intro w sizeV maxV w' b h
      simp only [ensure_space_loop] at h
      by_cases hcond : sizeV > maxV
      · rw [if_pos hcond] at h
        simp only [Option.bind_eq_bind', Option.bind_eq_some] at h
        obtain ⟨⟨w1, c1⟩, hes, h⟩ := h
        have base := ensure_space_WF_keys w _ w1 c1 hes
        by_cases hc0 : c1 = 0
        · rw [if_pos hc0] at h
          simp only [Option.some.injEq, Prod.mk.injEq] at h
          obtain ⟨rfl, -⟩ := h
          exact base
        · rw [if_neg hc0] at h
          have rest := ih _ _ _ _ _ h
          exact ⟨fun hwf => rest.1 (base.1 hwf),
            keySub_trans _ _ _ base.2 rest.2⟩
      · rw [if_neg hcond] at h
        simp only [Option.some.injEq, Prod.mk.injEq] at h
        obtain ⟨rfl, -⟩ := h
        exact ⟨fun hwf => hwf, keySub_refl w⟩

theorem foldr_max_le (l : List Nat) : ∀ k ∈ l, k ≤ l.foldr max 0 := by
  induction l with
  | nil => intro k hk; cases hk
  | cons a t ih =>
      intro k hk
      rcases List.mem_cons.mp hk with rfl | hk2
      · exact Nat.le_max_left k (t.foldr max 0)
      · exact le_trans (ih k hk2) (Nat.le_max_right a (t.foldr max 0))

theorem freshItemId_not_mem (w : World) :
    freshItemId w ∉ w.items.map Prod.fst := by
  intro hm
  have := foldr_max_le (w.items.map Prod.fst) _ hm
  unfold freshItemId at this
  omega

theorem link_head_WFparts_none (items : List (Nat × Item)) (tail : Option Nat)
    (newId keyId valId itemsize : Nat)
    (hwf : WFparts items none tail) :
    WFparts ((newId, ⟨keyId, valId, itemsize, none, none⟩) :: items)
      (some newId) (some newId) := by
  obtain ⟨L, hchain, htail, hnodup, hperm⟩ := hwf
  have hL : L = [] := by
    have hh := chainB_head items none none L hchain
    cases L with
    | nil => rfl
    | cons x t => cases hh
  subst hL
  have hkeys : items.map Prod.fst = [] := List.perm_nil.mp hperm
  refine ⟨[newId], ?_, rfl, List.nodup_singleton newId, ?_⟩
  · apply chainB_cons_intro _ none (some newId) newId []
      ⟨keyId, valId, itemsize, none, none⟩ rfl (lookupA_cons_self _ _ _) rfl
    simp [chainB]
  · simp only [List.map_cons, hkeys]
    exact List.Perm.refl _

theorem link_head_WFparts_some (items : List (Nat × Item)) (h0 : Nat)
    (tail : Option Nat) (hit : Item) (newId keyId valId itemsize : Nat)
    (hwf : WFparts items (some h0) tail)
    (hfresh : newId ∉ items.map Prod.fst)
    (hh : lookupA items h0 = some hit) :
    WFparts ((newId, ⟨keyId, valId, itemsize, some h0, none⟩) ::
      setA items h0 { hit with prev := some newId }) (some newId) tail := by
  obtain ⟨L, hchain, htail, hnodup, hperm⟩ := hwf
  have hLhead : L.head? = some h0 :=
    (chainB_head items none (some h0) L hchain).symm
  cases L with
  | nil => cases hLhead
  | cons h1 L2 =>
      simp only [List.head?_cons, Option.some.injEq] at hLhead
      subst hLhead
      have hnotin : h1 ∉ L2 := (List.nodup_cons.mp hnodup).1
      have hrepoint := chain_repoint items h1 hit L2 none (some newId) hchain
        hh hnotin
      have hfreshL : newId ∉ h1 :: L2 :=
        fun hm => hfresh ((hperm.mem_iff).mpr hm)
      refine ⟨newId :: h1 :: L2, ?_, ?_, ?_, ?_⟩
      · apply chainB_cons_intro _ none (some newId) newId (h1 :: L2)
          ⟨keyId, valId, itemsize, some h1, none⟩ rfl
          (lookupA_cons_self _ _ _) rfl
        show chainB ((newId, ⟨keyId, valId, itemsize, some h1, none⟩) ::
          setA items h1 { hit with prev := some newId })
          (some newId) (some h1) (h1 :: L2) = true
        apply chainB_frame (setA items h1 { hit with prev := some newId }) _
          (h1 :: L2) (some newId) (some h1)
        · intro j hj
          apply lookupA_cons_ne
          intro hc
          exact hfreshL (hc ▸ hj)
        · exact hrepoint
      · rw [htail]
        rfl
      · exact List.nodup_cons.mpr ⟨hfreshL, hnodup⟩
      · simp only [List.map_cons, map_fst_setA]
        exact List.Perm.cons newId hperm

theorem find_touch_WFparts (items : List (Nat × Item))
    (head tail : Option Nat) (i : Nat) (it : Item)
    (items1 : List (Nat × Item)) (head1 tail1 : Option Nat)
    (hwf : WFparts items head tail) (hit : lookupA items i = some it)
    (hU : unlinkItem items head tail it = some (items1, head1, tail1)) :
    (head1 = none →
      WFparts (setA items1 i { it with next := head1, prev := none })
        (some i) (some i)) ∧
    (∀ h0 hit2, head1 = some h0 →
      lookupA (setA items1 i { it with next := head1, prev := none }) h0 =
        some hit2 →
      WFparts (setA (setA items1 i { it with next := head1, prev := none })
        h0 { hit2 with prev := some i }) (some i) tail1) := by
  obtain ⟨L, hchain, htail, hnodup, hperm⟩ := hwf
  have hiL : i ∈ L := (hperm.mem_iff).mp (lookupA_some_mem items i it hit)
  obtain ⟨A, B, hL⟩ := List.append_of_mem hiL
  subst hL
  obtain ⟨hchain1, htail1, hi1, hkeys1⟩ := unlink_splice items head tail i it
    A B hchain htail hnodup hit items1 head1 tail1 hU
  have hsplit := List.nodup_append.mp hnodup
  have hiAB : i ∉ A ++ B := by
    intro hm
    rcases List.mem_append.mp hm with hja | hjb
    · exact hsplit.2.2 hja (List.mem_cons_self i B)
    · exact (List.nodup_cons.mp hsplit.2.1).1 hjb
  have hchain2 : chainB (setA items1 i { it with next := head1, prev := none })
      none head1 (A ++ B) = true := by
    apply chainB_frame items1 _ (A ++ B) none head1
    · intro j hj
      exact lookupA_setA_ne items1 i j _ (fun hc => hiAB (hc ▸ hj))
    · exact hchain1
  have hlook2 : lookupA (setA items1 i { it with next := head1, prev := none })
      i = some { it with next := head1, prev := none } :=
    lookupA_setA_self items1 i _ it hi1
  have hnodupAB : (A ++ B).Nodup := nodup_drop_middle A B i hnodup
  have hpermAB : ((setA items1 i
      { it with next := head1, prev := none }).map Prod.fst).Perm
      (i :: (A ++ B)) := by
    rw [map_fst_setA, hkeys1]
    exact hperm.trans List.perm_middle
  constructor
  · intro hnone
    subst hnone
    have hAB : A ++ B = [] := by
      have hh := chainB_head _ none none (A ++ B) hchain2
      cases hAB2 : A ++ B with
      | nil => rfl
      | cons x t => rw [hAB2] at hh; cases hh
    refine ⟨[i], ?_, rfl, List.nodup_singleton i, ?_⟩
    · apply chainB_cons_intro _ none (some i) i []
        { it with next := none, prev := none } rfl hlook2 rfl
      simp [chainB]
    · rw [hAB] at hpermAB
      exact hpermAB
  · intro h0 hit2 hsome hlookh0
    subst hsome
    have hABhead : (A ++ B).head? = some h0 :=
      (chainB_head _ none (some h0) (A ++ B) hchain2).symm
    cases hAB2 : A ++ B with
    | nil => rw [hAB2] at hABhead; cases hABhead
    | cons h1 L2 =>
        rw [hAB2] at hABhead
        simp only [List.head?_cons, Option.some.injEq] at hABhead
        subst hABhead
        rw [hAB2] at hchain2 hnodupAB
        have hih1 : i ≠ h1 := by
          intro hc
          apply hiAB
          rw [hAB2, hc]
          exact List.mem_cons_self h1 L2
        have hnotin2 : h1 ∉ L2 := (List.nodup_cons.mp hnodupAB).1
        have hrepoint := chain_repoint
          (setA items1 i { it with next := some h1, prev := none })
          h1 hit2 L2 none (some i) hchain2 hlookh0 hnotin2
        refine ⟨i :: h1 :: L2, ?_, ?_, ?_, ?_⟩
        · apply chainB_cons_intro _ none (some i) i (h1 :: L2)
            { it with next := some h1, prev := none } rfl ?_ rfl
          · show chainB _ (some i) (some h1) (h1 :: L2) = true
            exact hrepoint
          · rw [lookupA_setA_ne _ h1 i _ hih1]
            exact hlook2
        · rw [htail1, hAB2]
          rfl
        · exact List.nodup_cons.mpr
            ⟨by rw [← hAB2]; exact hiAB, hnodupAB⟩
        · rw [map_fst_setA, ← hAB2]
          exact hpermAB

theorem find_touch_WF (w : World) (i : Nat) (r : World × Option Nat)
    (hwf : WF w) (h : find_touch w i = some r) : WF r.1 := by
  unfold find_touch at h
  simp only [Option.bind_eq_bind', Option.bind_eq_some, Option.pure_def] at h
  obtain ⟨it, hit, ⟨items1, head1, tail1⟩, hU, h⟩ := h
  have hcore := find_touch_WFparts w.items w.head w.tail i it items1 head1
    tail1 hwf hit hU
  rcases head1 with _ | h0
  · dsimp only at h
    simp only [Option.bind_eq_some, Option.some.injEq] at h
    obtain ⟨pr, hpr, st, hst, hr⟩ := h
    rw [← hr, ← hpr]
    exact hcore.1 rfl
  · dsimp only at h
    simp only [Option.bind_eq_some, Option.some.injEq] at h
    obtain ⟨hit2, hlook, pr, hpr, st, hst, hr⟩ := h
    rw [← hr, ← hpr]
    exact hcore.2 h0 hit2 rfl hlook

theorem fz_find_item_WF (w : World) (f k : Nat) (r : World × Option Nat)
    (hwf : WF w) (h : fz_find_item w f k = some r) : WF r.1 := by
  unfold fz_find_item at h
  simp only [Option.bind_eq_bind', Option.bind_eq_some, Option.pure_def] at h
  obtain ⟨key, hkey, h⟩ := h
  by_cases hind : key.data.isIndirect = true
  · rw [if_pos hind] at h
    rcases hfound : lookupA w.hash ⟨f, key.data.num, key.data.gen⟩ with _ | i <;>
      rw [hfound] at h <;> dsimp only [Option.bind] at h
    · cases h
      exact hwf
    · exact find_touch_WF w i r hwf h
  · rw [if_neg hind] at h
    simp only [Option.bind_eq_some] at h
    obtain ⟨found, hfl, h⟩ := h
    rcases found with _ | i <;> dsimp only at h
    · cases h
      exact hwf
    · exact find_touch_WF w i r hwf h

theorem fz_remove_item_WF (w : World) (f k : Nat) (w' : World)
    (hwf : WF w) (h : fz_remove_item w f k = some w') : WF w' := by
  unfold fz_remove_item at h
  simp only [Option.bind_eq_bind', Option.bind_eq_some, Option.pure_def] at h
  obtain ⟨key, hkey, h⟩ := h
  have main : ∀ (w2 : World) (found : Option Nat), WF w2 →
      (match found with
       | none => some w2
       | some i => do
          let it ← lookupA w2.items i
          let (items1, head1, tail1) ← unlinkItem w2.items w2.head w2.tail it
          let s ← lookupA w2.storables it.val
          let dropFlag : Bool := s.refs > 0 && s.refs - 1 = 0
          let storables1 :=
            if s.refs > 0 then
              setA w2.storables it.val { s with refs := s.refs - 1 }
            else w2.storables
          let storables2 :=
            if dropFlag then removeA storables1 it.val else storables1
          let fin1 :=
            if dropFlag then w2.finalized ++ [it.val] else w2.finalized
          let objs1 ← dropObjHeap w2.objs it.key
          pure { w2 with items := removeA items1 i, storables := storables2,
                         objs := objs1, head := head1, tail := tail1,
                         finalized := fin1 }) = some w' → WF w' := by
    intro w2 found hwf2 hm
    rcases found with _ | i
    · dsimp only at hm
      cases hm
      exact hwf2
    · dsimp only at hm
      simp only [Option.bind_eq_bind', Option.bind_eq_some, Option.pure_def,
        Option.some.injEq] at hm
      obtain ⟨it, hit, ⟨items1, head1, tail1⟩, hU, s, hs, objs1, hobjs,
        hfin⟩ := hm
      rw [← hfin]
      exact unlink_remove_WFparts w2.items w2.head w2.tail i it items1 head1
        tail1 hwf2 hit hU
  by_cases hind : key.data.isIndirect = true
  · rw [if_pos hind] at h
    rcases hfound : lookupA w.hash ⟨f, key.data.num, key.data.gen⟩ with _ | i <;>
      rw [hfound] at h <;> dsimp only at h
    · exact main w none hwf h
    · exact main { w with
        hash := removeA w.hash ⟨f, key.data.num, key.data.gen⟩ } (some i)
        hwf h
  · rw [if_neg hind] at h
    simp only [Option.bind_eq_some] at h
    obtain ⟨found, hfl, ⟨w2, fnd⟩, hpair, h⟩ := h
    simp only [Option.some.injEq, Prod.mk.injEq] at hpair
    obtain ⟨hw2, hfnd⟩ := hpair
    subst hw2
    subst hfnd
    exact main w found hwf h

theorem store_link_WF (w4 : World) (newId keyId valId itemsize : Nat)
    (w' : World) (hwf4 : WF w4) (hfresh : newId ∉ w4.items.map Prod.fst)
    (h : store_link w4 newId keyId valId itemsize = some w') : WF w' := by
  unfold store_link at h
  simp only [Option.bind_eq_bind', Option.bind_eq_some, Option.pure_def] at h
  obtain ⟨v0, hv0, h⟩ := h
  by_cases hvr : v0.refs > 0 <;>
    [rw [if_pos hvr] at h; rw [if_neg hvr] at h] <;>
    (try dsimp only at h) <;>
    rcases hh : w4.head with _ | h0 <;> rw [hh] at h <;> dsimp only at h <;>
    simp only [Option.bind_eq_some, Option.some.injEq] at h
  · obtain ⟨pr, hpr, hw'⟩ := h
    rw [← hw', ← hpr]
    exact link_head_WFparts_none w4.items w4.tail newId keyId valId itemsize
      (by rw [← hh]; exact hwf4)
  · obtain ⟨hit, hlook, pr, hpr, hw'⟩ := h
    rw [← hw', ← hpr]
    exact link_head_WFparts_some w4.items h0 w4.tail hit newId keyId valId
      itemsize (by rw [← hh]; exact hwf4) hfresh hlook
  · obtain ⟨pr, hpr, hw'⟩ := h
    rw [← hw', ← hpr]
    exact link_head_WFparts_none w4.items w4.tail newId keyId valId itemsize
      (by rw [← hh]; exact hwf4)
  · obtain ⟨hit, hlook, pr, hpr, hw'⟩ := h
    rw [← hw', ← hpr]
    exact link_head_WFparts_some w4.items h0 w4.tail hit newId keyId valId
      itemsize (by rw [← hh]; exact hwf4) hfresh hlook

theorem store_admit_WF (w : World) (newId keyId valId itemsize : Nat)
    (refkey : Option RefKey) (indirect hashFails : Bool) (w' : World)
    (hwf : WF w) (hfresh : newId ∉ w.items.map Prod.fst)
    (h : store_admit w newId keyId valId itemsize refkey indirect hashFails =
      some w') : WF w' := by
  unfold store_admit at h
  simp only [Option.bind_eq_bind', Option.bind_eq_some, Option.pure_def] at h
  obtain ⟨objs1, hobjs, h⟩ := h
  by_cases hih : (indirect && hashFails) = true
  · rw [if_pos hih] at h
    simp only [Option.some.injEq] at h
    rw [← h]
    exact hwf
  · rw [if_neg hih] at h
    rcases refkey with _ | rk <;>
      simp only [Option.some_bind] at h
    · exact store_link_WF
        { w with objs := objs1, size := uadd w.size itemsize }
        newId keyId valId itemsize w' hwf hfresh h
    · exact store_link_WF
        { w with objs := objs1, hash := (rk, newId) :: w.hash,
                 size := uadd w.size itemsize }
        newId keyId valId itemsize w' hwf hfresh h

theorem fz_store_item_WF (w : World) (keyId valId itemsize : Nat) (hf : Bool)
    (w' : World) (hwf : WF w)
    (h : fz_store_item w keyId valId itemsize hf = some w') : WF w' := by
  unfold fz_store_item at h
  simp only [Option.bind_eq_bind', Option.bind_eq_some] at h
  obtain ⟨key, hkey, h⟩ := h
  have main : ∀ (rk0 : Option RefKey),
      (match w.max with
        | none => if true = false then some w
            else store_admit w (freshItemId w) keyId valId itemsize rk0
              key.data.isIndirect hf
        | some m => (ensure_space_loop (w.items.length + 1) w
              (uadd w.size itemsize) m).bind
            fun a => if a.2 = false then some a.1
              else store_admit a.1 (freshItemId w) keyId valId itemsize rk0
                key.data.isIndirect hf) = some w' → WF w' := by
    intro rk0 hm
    rcases hmax : w.max with _ | m <;> rw [hmax] at hm
    · rw [if_neg (by decide : ¬(true = false))] at hm
      exact store_admit_WF w (freshItemId w) keyId valId itemsize rk0
        key.data.isIndirect hf w' hwf (freshItemId_not_mem w) hm
    · simp only [Option.bind_eq_some] at hm
      obtain ⟨⟨w1, adm⟩, hloop, hm⟩ := hm
      try dsimp only at hm
      have hW1 := ensure_space_loop_WF_keys _ _ _ _ _ _ hloop
      by_cases hadm : adm = false
      · rw [if_pos hadm] at hm
        simp only [Option.some.injEq] at hm
        rw [← hm]
        exact hW1.1 hwf
      · rw [if_neg hadm] at hm
        apply store_admit_WF w1 (freshItemId w) keyId valId itemsize rk0
          key.data.isIndirect hf w' (hW1.1 hwf) ?_ hm
        intro hmem
        exact freshItemId_not_mem w (hW1.2 _ hmem)
  by_cases hind : key.data.isIndirect = true
  · rw [if_pos hind] at h
    simp only [Option.bind_eq_some] at h
    obtain ⟨val, hval, h⟩ := h
    obtain ⟨rk0, hrk, h⟩ := h
    exact main _ h
  · rw [if_neg hind] at h
    simp only [Option.pure_def, Option.some_bind] at h
    exact main _ h

/-- C10: every mutator of the LRU list preserves its well-formedness as a
doubly-linked list: starting from any world whose item heap is a consistent
double chain from `head` to `tail` (back-pointers inverse to forward
pointers, `head`'s prev and `tail`'s next absent, `tail` the last chained
id, every heap entry on the chain exactly once — `WF`), any successful run
of `evict`, `fz_store_item`, `fz_find_item` (which relinks the touched
entry at the head) or `fz_remove_item` ends in a world satisfying `WF`
again. -/
theorem C10_lru_well_formed_preserved (w : World) (hwf : WF w) :
    (∀ i w', evict w i = some w' → WF w') ∧
    (∀ keyId valId itemsize hf w',
        fz_store_item w keyId valId itemsize hf = some w' → WF w') ∧
    (∀ freeId keyId r, fz_find_item w freeId keyId = some r → WF r.1) ∧
    (∀ freeId keyId w', fz_remove_item w freeId keyId = some w' → WF w') :=
  ⟨fun i w' h => (evict_WF_keys w i w' h).1 hwf,
   fun keyId valId itemsize hf w' h =>
     fz_store_item_WF w keyId valId itemsize hf w' hwf h,
   fun freeId keyId r h => fz_find_item_WF w freeId keyId r hwf h,
   fun freeId keyId w' h => fz_remove_item_WF w freeId keyId w' hwf h⟩

theorem C10_lru_well_formed_preserved_witness : WF wABev :=
  (C10_lru_well_formed_preserved wAB
      ⟨[1, 2], by decide, by decide, by decide, by decide⟩).1
    2 wABev (by decide)

/-- C9: `fz_keep_storable` is a no-op on null and increments the reference
count only when it is positive, returning its argument; `fz_drop_storable`
is a no-op on null and on a negative (static) count, otherwise decrements
the count; the `free` capability runs exactly once, exactly when the count
transitions from 1 to 0 (the locked section only sets `do_free` and the
call happens after it), and never for a static storable. -/
theorem C9_storable_protocol :
    (fz_keep_storable_opt none = none ∧ fz_drop_storable_opt none = none) ∧
    (∀ s : SSt, (fz_keep_storable s).refs =
        (if s.refs > 0 then s.refs + 1 else s.refs) ∧
      (fz_keep_storable s).finCount = s.finCount) ∧
    (∀ s : SSt, s.refs < 0 → fz_drop_storable s = s) ∧
    (∀ s : SSt, 0 ≤ s.refs →
      ((fz_drop_storable s).finCount =
        s.finCount + (if s.refs = 1 then 1 else 0)) ∧
      ((fz_drop_storable s).refs = s.refs - 1) ∧
      (((fz_drop_storable_locked s).2 = true) ↔ s.refs = 1)) ∧
    (∀ (n : Int) (ops : List SOp), 0 < n →
      storableInv (runSOps ⟨n, 0⟩ ops)) ∧
    (∀ (n : Int) (ops : List SOp), n < 0 → runSOps ⟨n, 0⟩ ops = ⟨n, 0⟩) := by
  refine ⟨⟨rfl, rfl⟩, ?_, ?_, ?_, ?_, ?_⟩
  · intro s
    unfold fz_keep_storable
    split <;> simp
  · intro s h
    unfold fz_drop_storable fz_drop_storable_locked
    split_ifs
    simp_all
  · intro s h
    refine ⟨?_, ?_, ?_⟩ <;>
      · simp only [fz_drop_storable, fz_drop_storable_locked]
        split_ifs <;> simp_all <;> omega
  · intro n ops h
    exact runSOps_inv ops _ (Or.inl ⟨show (1 : Int) ≤ n by omega, rfl⟩)
  · intro n ops h
    exact runSOps_static ops _ h

/-- Witness for C9: a storable created with one reference, kept once and
dropped twice, ends with its `free` capability having run exactly once. -/
theorem C9_storable_protocol_witness :
    storableInv (runSOps ⟨1, 0⟩ [SOp.keep, SOp.drop, SOp.drop]) ∧
    fz_drop_storable ⟨-5, 0⟩ = ⟨-5, 0⟩ :=
  ⟨C9_storable_protocol.2.2.2.2.1 1 [SOp.keep, SOp.drop, SOp.drop] (by decide),
   C9_storable_protocol.2.2.1 ⟨-5, 0⟩ (by decide)⟩

/-- C8: neither `ensure_space` nor the scavenge sweep ever evicts an entry
whose storable's reference count differs from 1.  Whenever either returns
normally, every entry whose storable had a count other than 1 is still
present with the same key, value and size, and its storable cell —
including the count — is unchanged (`presNE`); the pin/unpin writes of
pass 2 cancel exactly.  Concretely, the store `w8` whose only entry has an
external reference (count 2) survives a scavenge of `UINT_MAX` bytes
untouched, and as soon as the external reference is dropped the same
sweep evicts it. -/
theorem C8_external_ref_never_evicted :
    (∀ (w : World) (tofree : Nat) (w' : World) (c : Nat),
      ensure_space w tofree = some (w', c) → presNE w w') ∧
    (∀ (w : World) (tofree : Nat) (w' : World) (ok : Bool),
      scavenge w tofree = some (w', ok) → presNE w w') ∧
    scavenge w8 UINT_MAX = some (w8, false) ∧
    ((fz_drop_storable_w w8 21).bind (fun w => scavenge w 1)).map
        (fun r => (r.1.items.length, r.1.size, r.2)) = some (0, 0, true) := by
  refine ⟨ensure_space_presNE, scavenge_presNE, by decide, by decide⟩

/-- Witness for C8: applying the preservation statement to the concrete
store `w8` (whose sweep returns without evicting), the count-2 entry and
its storable survive unchanged. -/
theorem C8_external_ref_never_evicted_witness :
    (lookupA w8.items 1).map itemCore = some (itemCore ⟨11, 21, 30, none, none⟩) ∧
    lookupA w8.storables 21 = some ⟨2, 5⟩ :=
  C8_external_ref_never_evicted.2.1 w8 UINT_MAX w8 false (by decide)
    1 ⟨11, 21, 30, none, none⟩ ⟨2, 5⟩ (by decide) (by decide) (by decide)

/-- C1: the claim fails on the code.  In the two-entry bounded store `wAB`
(capacity 100, size 90, evictable tail entry of size 60), inserting a
size-40 item lets the first `ensure_space` call free 60 bytes — after
which `current_size + declared_size = 70 ≤ 100` — yet the insert is
abandoned: the local `size` bound of the `while` loop in `fz_store_item`
is never recomputed, so a second `ensure_space` call runs on the already
drained store and returns 0.  The new item (id 3) is absent and
`current_size` is 30, not 70.  In the claim's own scenario `wX` (capacity
100, only a size-60 evictable entry `X`, insert of size-60 `Y`) the code
does not even reach that point: evicting the head entry dereferences the
absent predecessor in `ensure_space` pass 2 (undefined behaviour,
`none`). -/
theorem C1_bounded_insert_abandoned :
    (fz_store_item wAB 13 23 40 false).map
        (fun w => (lookupA w.items 3, w.size, w.finalized)) =
      some (none, 30, [22]) ∧
    fz_store_item wX 12 22 60 false = none := by decide

/-- C2: the claim fails on the code.  The two non-overflow branches of the
`tofree` computation in `fz_store_scavenge` are swapped relative to the
spec: with `requested = 2000`, `current_size = 100`, `ceiling = 1600` the
spec amount is `max(0, 2100 - 1600) = 500` but the code skips the phase
(`continue`); with `requested = 10` the spec amount is 0 (skip) but the
code attempts a sweep with the wrapped amount `110 - 1600 mod 2^32 =
4294965806`.  Consequently a full run under genuine pressure fails every
phase and leaves the store `w2` untouched, while a run under no pressure
needlessly evicts everything. -/
theorem C2_scavenge_tofree_inverted :
    scavenge_tofree 2000 100 1600 = none ∧
    spec_to_free 2000 100 1600 = 500 ∧
    scavenge_tofree 10 100 1600 = some 4294965806 ∧
    spec_to_free 10 100 1600 = 0 ∧
    fz_store_scavenge w2 2000 0 = some (w2, false, 17) ∧
    (fz_store_scavenge w2 10 0).map
        (fun r => (r.1.size, r.1.items.length, r.2.1)) =
      some (0, 0, true) := by decide

/-- C3: the claim fails on the code.  Removing the only entry (declared
size 50) of store `w3` empties the LRU list — the sum of declared sizes
over reachable entries drops to 0 — but `fz_remove_item` never subtracts
`item->size`, so `current_size` stays 50. -/
theorem C3_remove_leaves_size :
    (fz_remove_item w3 5 11).map World.size = some 50 ∧
    (fz_remove_item w3 5 11).bind listSizes = some 0 ∧
    (fz_remove_item w3 5 11).map (fun w => w.items.length) = some 0 := by
  decide

/-- C4: the claim fails on the code.  In pass 2 of `ensure_space` the pin
`prev->val->refs++` is guarded by `if (prev)` but the unpin
`--prev->val->refs` is not, so evicting an entry that is the head of the
list (as in the one-entry store `wX`) dereferences the absent predecessor:
undefined behaviour (`none`).  When a predecessor does exist (store `wAB`)
the pin and unpin balance: the predecessor's reference count is 2 before
and after the eviction sweep. -/
theorem C4_unpin_not_guarded :
    ensure_space wX 1 = none ∧
    (ensure_space wAB 30).map
        (fun r => ((lookupA r.1.storables 21).map Storable.refs, r.2)) =
      some (some 2, 60) ∧
    (lookupA wAB.storables 21).map Storable.refs = some 2 := by decide

/-- C5: the claim fails on the code.  When the index insert fails for the
indirect key of store `w5`, `fz_store_item` rolls back the size
reservation (size returns to 0), leaves the value's reference count
unchanged (still 1) and stores nothing — but the failure path frees the
item without `fz_drop_obj(item->key)`, so the key reference taken by
`fz_keep_obj` at the start of the attempt leaks: the key object's count
goes from 1 to 2 and stays there. -/
theorem C5_index_insert_failure_leaks_key :
    (fz_store_item w5 11 21 40 true).map
        (fun w => (w.size, w.items, w.hash)) = some (0, [], []) ∧
    (fz_store_item w5 11 21 40 true).map
        (fun w => ((lookupA w.storables 21).map Storable.refs,
          (lookupA w.objs 11).map KeyObj.refs)) = some (some 1, some 2) ∧
    (lookupA w5.objs 11).map KeyObj.refs = some 1 := by decide

/-- C7: in the unbounded store `w7`, inserting `V1` (id 31, size 100,
destructor identity `T = 1`) and `V2` (id 32, size 50, destructor identity
`U = 2`) under the same indirect reference `(7, 0)` leaves both entries
present without collision (two items, both refkeys indexed); lookup of
`(7, 0, T)` returns `V1`; after removing `(7, 0, U)`, lookup of
`(7, 0, U)` is absent while `(7, 0, T)` still returns `V1`. -/
theorem C7_same_reference_distinct_products :
    ((fz_store_item w7 10 31 100 false).bind
        (fun a => fz_store_item a 10 32 50 false)).map
        (fun b => (b.items.length,
          lookupA b.hash ⟨1, 7, 0⟩, lookupA b.hash ⟨2, 7, 0⟩)) =
      some (2, some 1, some 2) ∧
    ((fz_store_item w7 10 31 100 false).bind
        (fun a => fz_store_item a 10 32 50 false)).map
        (fun b => (fz_find_item b 1 10).map Prod.snd) =
      some (some (some 31)) ∧
    (do
      let a ← fz_store_item w7 10 31 100 false
      let b ← fz_store_item a 10 32 50 false
      let (c, r1) ← fz_find_item b 1 10
      let d ← fz_remove_item c 2 10
      let (e, r2) ← fz_find_item d 2 10
      let (_, r3) ← fz_find_item e 1 10
      pure (r1, r2, r3)) = some (some 31, none, some 31) := by decide

/-- C6: counterexample to the claim as stated.  At phase 0 with bounded
capacity 17 the code's ceiling is `17 / 16 * 16 = 16`, while the claim's
exact-arithmetic formula gives `17 * 16 / 16 = 17`; with unlimited
capacity and `current_size = 31` the code gives `31 / 16 * 15 = 15`, while
the claim's formula gives `31 * 15 / 16 = 29`. -/
theorem C6_ceiling_counterexample :
    scavenge_phase_max (some 17) 0 0 = 16 ∧ 17 * (16 - 0) / 16 = 17 ∧
    scavenge_phase_max none 31 0 = 15 ∧ 31 * (15 - 0) / (16 - 0) = 29 := by
  decide

/-- C6 (amended): for every phase `p ≤ 16` the ceiling equals
`max_capacity / 16 * (16 - p)` when capacity is bounded and
`current_size / (16 - p) * (15 - p)` when unlimited — the truncating
division is performed before the multiplication — and 0 at `p = 16`. -/
theorem C6_ceiling_formulas (storeMax storeSize p : Nat) (hp : p ≤ 16) :
    scavenge_phase_max (some storeMax) storeSize p =
      (if p = 16 then 0 else storeMax / 16 * (16 - p)) ∧
    scavenge_phase_max none storeSize p =
      (if p = 16 then 0 else storeSize / (16 - p) * (15 - p)) := by
  constructor <;> simp only [scavenge_phase_max] <;> split_ifs <;>
    first | rfl | omega

/-- Witness for the amended C6 at phase 3. -/
theorem C6_ceiling_formulas_witness :
    scavenge_phase_max (some 1600) 320 3 =
      (if (3 : Nat) = 16 then 0 else 1600 / 16 * (16 - 3)) ∧
    scavenge_phase_max none 320 3 =
      (if (3 : Nat) = 16 then 0 else 320 / (16 - 3) * (15 - 3)) :=
  C6_ceiling_formulas 1600 320 3 (by decide)

end ResStore
